import Mathlib

/-!
Shallow embedding of `src/payload_consumer/filesystem_verifier_action.cc`
(`chromeos_update_engine::FilesystemVerifierAction`) from
AOSPA/android_system_update_engine, and proofs about the claims of the
specification of that file.

The C++ action is a cooperative state machine driven by a message loop:
`PerformAction` starts it, `StartPartitionHashing` /
`ScheduleFileSystemRead` / `OnReadDone` / `ReadVerityAndFooter` /
`FinishPartitionHashing` re-enter each other (the only suspension point is
the `PostTask` between `ScheduleFileSystemRead` and `OnReadDone`), and
`Cleanup` is the single exit.  We embed it as a step function over an
explicit control point (`Ctl`, one constructor per C++ function, plus one
for the `while` loop inside `ReadVerityAndFooter`), iterated by a fuel
counter.  Every external collaborator (the `DynamicPartitionControl`
interface, the `VerityWriter`, the `HashCalculator`, the file descriptor
reads, the output pipe) is a parameter gathered in `Env`.

Observable behaviour is recorded as a trace of `Event`s: issued reads and
seeks, verity writer calls, the untouched-dynamic-partition extent check,
progress callbacks, the output object, and the `ActionComplete` code.

The hasher is abstracted: instead of byte lists, the digest is an
environment function of the list of chunks fed to it (each chunk is the
(position, length, after-verity-finalize) description of the bytes read
from the device, which together with the device contents determines the
bytes, hence the SHA-256 digest).  Machine integers (`uint64_t`, `size_t`,
`off_t`) are modelled as `Nat`; no arithmetic here can overflow 2^64 for
realistic inputs, and the one subtraction the C++ performs on unsigned
values (`filesystem_data_end_ - offset_`, `partition_size_ -
filesystem_data_end_`) is taken at `Nat` (truncated) — the code maintains
`offset_ ≤ filesystem_data_end_`, and `filesystem_data_end_ ≤
partition_size_` holds on every plan satisfying the spec's layout
invariants.  The C++ `double` progress value is modelled as the exact
rational `(offset/partition_size + partition_index)/partitions.size()`,
carried in the trace as a numerator/denominator pair of naturals and
interpreted into `ℚ` by `progressQ`.
-/

namespace FilesystemVerifier

/-- `enum class VerifierStep` (declared in the action's header; the header
is not part of the sources, the two members are named throughout
`filesystem_verifier_action.cc`). -/
inductive VerifierStep where
  | kVerifySourceHash
  | kVerifyTargetHash
deriving DecidableEq, Repr

/-- The subset of `ErrorCode` values mentioned by
`filesystem_verifier_action.cc`. -/
inductive ErrorCode where
  | kSuccess
  | kError
  | kNewRootfsVerificationError
  | kDownloadStateInitializationError
  | kFilesystemVerifierError
  | kVerityCalculationError
deriving DecidableEq, Repr

/-- `InstallPlan::Partition`, restricted to the fields
`filesystem_verifier_action.cc` reads.  Hashes are abstract byte strings
(`List Nat`). -/
structure Partition where
  name : String
  source_path : String
  target_path : String
  readonly_target_path : String
  source_size : Nat
  target_size : Nat
  source_hash : List Nat
  target_hash : List Nat
  hash_tree_offset : Nat
  hash_tree_size : Nat
  fec_offset : Nat
  fec_size : Nat
deriving DecidableEq, Repr

instance : Inhabited Partition :=
  ⟨{ name := "", source_path := "", target_path := "", readonly_target_path := "",
     source_size := 0, target_size := 0, source_hash := [], target_hash := [],
     hash_tree_offset := 0, hash_tree_size := 0, fec_offset := 0, fec_size := 0 }⟩

/-- `InstallPlan`, restricted to the fields `filesystem_verifier_action.cc`
reads. -/
structure InstallPlan where
  source_slot : Nat
  target_slot : Nat
  write_verity : Bool
  partitions : List Partition
  untouched_dynamic_partitions : List String
deriving DecidableEq, Repr

/-- A chunk fed to the `HashCalculator`: the device position it was read
from, how many bytes, and whether the verity writer had already finalized
(i.e. rewritten the hash-tree/FEC region) at the time of the read.
Together with the (fixed) device contents this determines the bytes, so
the digest is a function of the chunk list (see `Env.hashFn`). -/
abbrev Chunk := Nat × Nat × Bool

/-- The external collaborators of the action, as pure functions:
`DynamicPartitionControlInterface`, `VerityWriterInterface`,
`HashCalculator` failure results and digests, the file-descriptor reads,
and whether the action has an output pipe. -/
structure Env where
  /-- `dynamic_control_->UpdateUsesSnapshotCompression()` -/
  snapshotCompression : Bool
  /-- `dynamic_control_->IsDynamicPartition(name, slot)` -/
  isDynamic : String → Nat → Bool
  /-- whether `dynamic_control_->OpenCowFd(name, source_path, true)` returns
  a non-null descriptor -/
  openCowOk : String → String → Bool
  /-- whether `EintrSafeFileDescriptor::Open(path, flags)` succeeds -/
  openOk : String → Bool
  /-- `dynamic_control_->VerifyExtentsForUntouchedPartitions(src, tgt, names)` -/
  verifyExtents : Nat → Nat → List String → Bool
  /-- whether `verity_writer_->Init(partition)` succeeds, per partition index -/
  verityInitOk : Nat → Bool
  /-- whether `verity_writer_->Update(offset, buf, len)` succeeds,
  per (partition index, offset) -/
  verityUpdateOk : Nat → Nat → Bool
  /-- whether `verity_writer_->Finalize(fd, fd)` succeeds, per partition index -/
  verityFinalizeOk : Nat → Bool
  /-- whether `hasher_->Update(buf, len)` succeeds, per (partition index, position) -/
  hashUpdateOk : Nat → Nat → Bool
  /-- whether `hasher_->Finalize()` succeeds, per (partition index, step) -/
  hashFinalizeOk : Nat → VerifierStep → Bool
  /-- `hasher_->raw_hash()`: the digest, as a function of the partition
  index, the step (which select the device read) and the chunks fed in -/
  hashFn : Nat → VerifierStep → List Chunk → List Nat
  /-- result of `fd->Read(buf, req)` at (partition index, step,
  after-finalize flag, position, requested length): negative means error.
  A real descriptor never returns more than requested; the interpreter
  clamps accordingly. -/
  readResult : Nat → VerifierStep → Bool → Nat → Nat → Int
  /-- `HasOutputPipe()` -/
  hasOutputPipe : Bool

/-- Observable events of a run, in order. -/
inductive Event where
  /-- the `LOG(INFO) << "Hashing partition …"` line at the top of the
  per-partition part of `StartPartitionHashing` (marks a pass start) -/
  | hashingStarted (pidx : Nat) (step : VerifierStep)
  /-- `partition_fd_->Open(path, flags)` in `InitializeFd` -/
  | openFd (path : String)
  /-- `dynamic_control_->OpenCowFd(name, source_path, true)` -/
  | openCow (name source_path : String) (ok : Bool)
  /-- `dynamic_control_->MapAllPartitions()` -/
  | mapAll
  /-- `dynamic_control_->UnmapAllPartitions()` -/
  | unmapAll
  /-- `partition_fd_->Seek(pos, SEEK_SET)` -/
  | seek (pidx : Nat) (step : VerifierStep) (pos : Nat)
  /-- an issued `partition_fd_->Read(buf, req)` at device position `off` -/
  | read (pidx : Nat) (step : VerifierStep) (off : Nat) (req : Nat)
  /-- `verity_writer_->Init(partition)` and its result -/
  | verityInit (pidx : Nat) (ok : Bool)
  /-- `verity_writer_->Update(off, buf, len)` and its result -/
  | verityUpdate (pidx : Nat) (off len : Nat) (ok : Bool)
  /-- `verity_writer_->Finalize(fd, fd)` and its result -/
  | verityFinalize (pidx : Nat) (ok : Bool)
  /-- `dynamic_control_->VerifyExtentsForUntouchedPartitions(…)` and its result -/
  | verifyExtents (result : Bool)
  /-- `delegate_->OnVerifyProgressUpdate(p)`, with the delivered value
  recorded as the exact fraction `num / den` (see `progressQ`).  The value
  the code computes, `(offset_/partition_size_ + partition_index_)
  / partitions.size()`, equals `(offset_ + partition_index_ *
  partition_size_) / (partition_size_ * partitions.size())` exactly, and
  `Cleanup`'s `UpdateProgress(1.0)` is `1 / 1`. -/
  | progress (num den : Nat)
  /-- `SetOutputObject(install_plan_)` -/
  | setOutput (plan : InstallPlan)
  /-- `processor_->ActionComplete(this, code)` -/
  | complete (code : ErrorCode)
deriving DecidableEq, Repr

/-- The mutable fields of `FilesystemVerifierAction` that the embedded code
reads or writes.  `hashed` is the `hasher_` state as a chunk list, `pos`
the descriptor position, `finalized` whether `verity_writer_->Finalize`
already rewrote the device for the current partition. -/
structure VState where
  plan : InstallPlan
  partition_index : Nat
  verifier_step : VerifierStep
  partition_size : Nat
  filesystem_data_end : Nat
  offset : Nat
  pos : Nat
  hashed : List Chunk
  bufferSize : Nat
  cancelled : Bool
  finalized : Bool
deriving DecidableEq, Repr

/-- Initial state for a run.  Modelled from the spec: the member
initializers of the class declaration live in the header, which is not
among the sources; §4.1 of the spec fixes the initial step per partition
as `VerifyTarget` and the run starts at partition index 0 with the
cancellation flag clear. -/
def initialState (plan : InstallPlan) : VState :=
  { plan := plan, partition_index := 0,
    verifier_step := VerifierStep.kVerifyTargetHash,
    partition_size := 0, filesystem_data_end := 0, offset := 0, pos := 0,
    hashed := [], bufferSize := 0, cancelled := false, finalized := false }

/-- `kReadFileBufferSize = 128 * 1024` -/
def kReadFileBufferSize : Nat := 128 * 1024

/-- How a run (or a step) ends. `checkFailed` models the process abort of
`CHECK_LE(partition.hash_tree_offset, partition.fec_offset)`; `cancelled`
is the silent return of `Cleanup` when `cancelled_` is set (no
`ActionComplete`). -/
inductive Outcome where
  | completed (code : ErrorCode)
  | cancelled
  | checkFailed
  | outOfFuel
deriving DecidableEq, Repr

/-- Control points: one per C++ member function on the hashing path, plus
`readVerityLoop` for the `while (bytes_to_read > 0)` loop inside
`ReadVerityAndFooter`. -/
inductive Ctl where
  | startPartitionHashing
  | scheduleFileSystemRead
  | onReadDone (bytes_read : Nat)
  | readVerityAndFooter
  | readVerityLoop
  | finishPartitionHashing
deriving DecidableEq, Repr

/-- Result of one step: either the next control point or a terminal
outcome. -/
inductive StepOut where
  | next (s : VState) (c : Ctl)
  | done (o : Outcome)
deriving DecidableEq, Repr

/-- `FilesystemVerifierAction::Cleanup(code)`: release descriptor and
buffer (no events), unmap dynamic partitions when verity was not written
and VABC is in use, then — unless cancelled — set the output object on
success, report final progress 1.0 and complete the action. -/
def cleanup (env : Env) (plan : InstallPlan) (cancelled : Bool)
    (code : ErrorCode) : List Event × Outcome :=
  let ev0 : List Event :=
    if plan.write_verity = false ∧ env.snapshotCompression = true then
      [Event.unmapAll] else []
  if cancelled then (ev0, Outcome.cancelled)
  else
    (ev0 ++
      (if code = ErrorCode.kSuccess ∧ env.hasOutputPipe = true then
        [Event.setOutput plan] else []) ++
      [Event.progress 1 1, Event.complete code],
     Outcome.completed code)

/-- A step branch that calls `Cleanup(code)` and returns: `ev` are the
events already emitted by the branch. -/
def cleanupStep (env : Env) (s : VState) (ev : List Event)
    (code : ErrorCode) : List Event × StepOut :=
  let r := cleanup env s.plan s.cancelled code
  (ev ++ r.1, StepOut.done r.2)

/-- `FilesystemVerifierAction::ShouldWriteVerity()`. -/
def shouldWriteVerity (s : VState) : Bool :=
  let partition := s.plan.partitions.getD s.partition_index default
  decide (s.verifier_step = VerifierStep.kVerifyTargetHash) &&
    s.plan.write_verity &&
    (decide (0 < partition.hash_tree_size) || decide (0 < partition.fec_size))

/-- The value `StartPartitionHashing` leaves in `filesystem_data_end_`
(lines 249–256): start at `partition_size_`, override with
`hash_tree_offset` when nonzero, else with `fec_offset` when nonzero. -/
def fdeComputed (partition : Partition) (partition_size : Nat) : Nat :=
  if partition.hash_tree_offset ≠ 0 then partition.hash_tree_offset
  else if partition.fec_offset ≠ 0 then partition.fec_offset
  else partition_size

/-- The tail of `StartPartitionHashing` after the file descriptor was
obtained successfully (lines 245–268): resize the buffer, make a fresh
hasher, set `offset_` and `filesystem_data_end_` (with the
`CHECK_LE(hash_tree_offset, fec_offset)` abort), run
`verity_writer_->Init` when verity is to be written, then schedule the
first read. -/
def afterFdInit (env : Env) (s : VState) (ev : List Event) :
    List Event × StepOut :=
  let partition := s.plan.partitions.getD s.partition_index default
  let s := { s with bufferSize := kReadFileBufferSize, hashed := [],
                    offset := 0, pos := 0, finalized := false,
                    filesystem_data_end := s.partition_size }
  if partition.hash_tree_offset ≤ partition.fec_offset then
    let s := { s with
      filesystem_data_end := fdeComputed partition s.partition_size }
    if shouldWriteVerity s then
      let ok := env.verityInitOk s.partition_index
      let ev := ev ++ [Event.verityInit s.partition_index ok]
      if ok then (ev, StepOut.next s Ctl.scheduleFileSystemRead)
      else cleanupStep env s ev ErrorCode.kVerityCalculationError
    else (ev, StepOut.next s Ctl.scheduleFileSystemRead)
  else (ev, StepOut.done Outcome.checkFailed)

/-- One step of the action at control point `c`.  Each `Ctl` case is the
direct transcription of the corresponding function of
`filesystem_verifier_action.cc`. -/
def step (env : Env) (s : VState) : Ctl → List Event × StepOut
  | Ctl.startPartitionHashing =>
    -- StartPartitionHashing, lines 183–269
    if s.partition_index = s.plan.partitions.length then
      if s.plan.untouched_dynamic_partitions ≠ [] then
        let r := env.verifyExtents s.plan.source_slot s.plan.target_slot
          s.plan.untouched_dynamic_partitions
        if r then
          let c := cleanup env s.plan s.cancelled ErrorCode.kSuccess
          (Event.verifyExtents true :: c.1, StepOut.done c.2)
        else
          let c := cleanup env s.plan s.cancelled ErrorCode.kFilesystemVerifierError
          (Event.verifyExtents false :: c.1, StepOut.done c.2)
      else
        let c := cleanup env s.plan s.cancelled ErrorCode.kSuccess
        (c.1, StepOut.done c.2)
    else
      let partition := s.plan.partitions.getD s.partition_index default
      let part_path : String :=
        match s.verifier_step with
        | VerifierStep.kVerifySourceHash => partition.source_path
        | VerifierStep.kVerifyTargetHash => partition.target_path
      let psize : Nat :=
        match s.verifier_step with
        | VerifierStep.kVerifySourceHash => partition.source_size
        | VerifierStep.kVerifyTargetHash => partition.target_size
      let s := { s with partition_size := psize }
      let ev0 := [Event.hashingStarted s.partition_index s.verifier_step]
      if env.snapshotCompression = true ∧
          s.verifier_step = VerifierStep.kVerifyTargetHash ∧
          env.isDynamic partition.name s.plan.target_slot = true then
        -- InitializeFdVABC, lines 137–166
        if shouldWriteVerity s = false then
          let ev1 := ev0 ++ [Event.unmapAll, Event.mapAll,
            Event.openFd partition.readonly_target_path]
          if env.openOk partition.readonly_target_path then
            afterFdInit env s ev1
          else cleanupStep env s ev1 ErrorCode.kFilesystemVerifierError
        else
          let ok := env.openCowOk partition.name partition.source_path
          let ev1 := ev0 ++ [Event.openCow partition.name partition.source_path ok]
          if ok then
            afterFdInit env { s with partition_size := partition.target_size } ev1
          else cleanupStep env s ev1 ErrorCode.kFilesystemVerifierError
      else
        if part_path = "" then
          if psize = 0 then
            -- skip this partition and recurse
            (ev0, StepOut.next { s with partition_index := s.partition_index + 1 }
              Ctl.startPartitionHashing)
          else cleanupStep env s ev0 ErrorCode.kFilesystemVerifierError
        else
          -- InitializeFd, lines 168–181 (SetBlockDeviceReadOnly failure is
          -- only warned about, so it is not modelled)
          let ev1 := ev0 ++ [Event.openFd part_path]
          if env.openOk part_path then afterFdInit env s ev1
          else cleanupStep env s ev1 ErrorCode.kFilesystemVerifierError
  | Ctl.scheduleFileSystemRead =>
    -- ScheduleFileSystemRead, lines 309–334
    let bytes_to_read := min s.bufferSize (s.filesystem_data_end - s.offset)
    if bytes_to_read = 0 then ([], StepOut.next s Ctl.readVerityAndFooter)
    else
      let s := { s with pos := s.offset }
      let ev := [Event.seek s.partition_index s.verifier_step s.offset,
                 Event.read s.partition_index s.verifier_step s.offset bytes_to_read]
      let r := env.readResult s.partition_index s.verifier_step s.finalized
        s.pos bytes_to_read
      if r < 0 then cleanupStep env s ev ErrorCode.kError
      else (ev, StepOut.next s (Ctl.onReadDone (min r.toNat bytes_to_read)))
  | Ctl.onReadDone n =>
    -- OnReadDone, lines 336–377
    if s.cancelled then cleanupStep env s [] ErrorCode.kError
    else if n = 0 then cleanupStep env s [] ErrorCode.kFilesystemVerifierError
    else if env.hashUpdateOk s.partition_index s.offset then
      let s := { s with hashed := s.hashed ++ [(s.offset, n, s.finalized)] }
      let ev := [Event.progress
        (s.offset + s.partition_index * s.partition_size)
        (s.partition_size * s.plan.partitions.length)]
      if shouldWriteVerity s then
        let ok := env.verityUpdateOk s.partition_index s.offset
        let ev := ev ++ [Event.verityUpdate s.partition_index s.offset n ok]
        if ok then
          let s := { s with offset := s.offset + n }
          if s.offset = s.filesystem_data_end then
            (ev, StepOut.next s Ctl.readVerityAndFooter)
          else (ev, StepOut.next s Ctl.scheduleFileSystemRead)
        else cleanupStep env s ev ErrorCode.kVerityCalculationError
      else
        let s := { s with offset := s.offset + n }
        if s.offset = s.filesystem_data_end then
          (ev, StepOut.next s Ctl.readVerityAndFooter)
        else (ev, StepOut.next s Ctl.scheduleFileSystemRead)
    else cleanupStep env s [] ErrorCode.kError
  | Ctl.readVerityAndFooter =>
    -- ReadVerityAndFooter, lines 279–289 (up to the re-seek)
    if shouldWriteVerity s then
      let ok := env.verityFinalizeOk s.partition_index
      let ev := [Event.verityFinalize s.partition_index ok]
      if ok then
        let s := { s with finalized := true, pos := s.filesystem_data_end }
        (ev ++ [Event.seek s.partition_index s.verifier_step s.filesystem_data_end],
         StepOut.next s Ctl.readVerityLoop)
      else cleanupStep env s ev ErrorCode.kFilesystemVerifierError
    else
      let s := { s with pos := s.filesystem_data_end }
      ([Event.seek s.partition_index s.verifier_step s.filesystem_data_end],
       StepOut.next s Ctl.readVerityLoop)
  | Ctl.readVerityLoop =>
    -- ReadVerityAndFooter, lines 290–306 (the while loop; bytes_to_read is
    -- partition_size_ - current position)
    let bytes_to_read := s.partition_size - s.pos
    if bytes_to_read = 0 then ([], StepOut.next s Ctl.finishPartitionHashing)
    else
      let read_size := min s.bufferSize bytes_to_read
      let ev := [Event.read s.partition_index s.verifier_step s.pos read_size]
      let r := env.readResult s.partition_index s.verifier_step s.finalized
        s.pos read_size
      if r ≤ 0 then cleanupStep env s ev ErrorCode.kFilesystemVerifierError
      else if env.hashUpdateOk s.partition_index s.pos then
        let n := min r.toNat read_size
        let s := { s with hashed := s.hashed ++ [(s.pos, n, s.finalized)],
                          pos := s.pos + n }
        (ev, StepOut.next s Ctl.readVerityLoop)
      else cleanupStep env s ev ErrorCode.kError
  | Ctl.finishPartitionHashing =>
    -- FinishPartitionHashing, lines 379–453
    if env.hashFinalizeOk s.partition_index s.verifier_step then
      let digest := env.hashFn s.partition_index s.verifier_step s.hashed
      let partition := s.plan.partitions.getD s.partition_index default
      match s.verifier_step with
      | VerifierStep.kVerifyTargetHash =>
        if partition.target_hash ≠ digest then
          if partition.source_hash = [] then
            cleanupStep env s [] ErrorCode.kNewRootfsVerificationError
          else
            ([], StepOut.next
              { s with verifier_step := VerifierStep.kVerifySourceHash }
              Ctl.startPartitionHashing)
        else
          ([], StepOut.next { s with partition_index := s.partition_index + 1 }
            Ctl.startPartitionHashing)
      | VerifierStep.kVerifySourceHash =>
        if partition.source_hash ≠ digest then
          cleanupStep env s [] ErrorCode.kDownloadStateInitializationError
        else cleanupStep env s [] ErrorCode.kNewRootfsVerificationError
    else cleanupStep env s [] ErrorCode.kError

/-- Iterate `step` with fuel, accumulating events. -/
def runLoop (env : Env) : Nat → VState → Ctl → List Event × Outcome
  | 0, _, _ => ([], Outcome.outOfFuel)
  | Nat.succ fuel, s, c =>
    match step env s c with
    | (ev, StepOut.done o) => (ev, o)
    | (ev, StepOut.next s' c') =>
      let r := runLoop env fuel s' c'
      (ev ++ r.1, r.2)

/-- `FilesystemVerifierAction::PerformAction()` on a present input object:
the empty-partitions short circuit (lines 92–98, via the
`ScopedActionCompleter` with code `kSuccess`), otherwise
`StartPartitionHashing`. -/
def performAction (env : Env) (plan : InstallPlan) (fuel : Nat) :
    List Event × Outcome :=
  if plan.partitions = [] then
    ((if env.hasOutputPipe then [Event.setOutput plan] else []) ++
      [Event.complete ErrorCode.kSuccess],
     Outcome.completed ErrorCode.kSuccess)
  else runLoop env fuel (initialState plan) Ctl.startPartitionHashing

/-- `FilesystemVerifierAction::TerminateProcessing()`: cancel the pending
task (not observable here), set `cancelled_`, call `Cleanup(kSuccess)`
(the code is ignored since `cancelled_` is set). -/
def terminateProcessing (env : Env) (s : VState) : List Event × Outcome :=
  cleanup env s.plan true ErrorCode.kSuccess

/-- The rational value of a recorded progress callback.  (The C++ delivers
a `double`; for the quantities at hand, `x/0 = 0` only arises on plans
that violate the spec's layout invariants, where the double would be
NaN.) -/
def progressQ (num den : Nat) : ℚ := (num : ℚ) / (den : ℚ)

/-- The spec's formula for the filesystem data end (§3): "min
(hash_tree_offset if >0, fec_offset if >0, partition_size)".  Stated from
the spec's words, to be compared with the program's `fdeComputed`. -/
def specFilesystemDataEnd (partition : Partition) (partition_size : Nat) : Nat :=
  min (if 0 < partition.hash_tree_offset then partition.hash_tree_offset
       else partition_size)
    (min (if 0 < partition.fec_offset then partition.fec_offset
          else partition_size)
      partition_size)

/-- The device path the `switch (verifier_step_)` of
`StartPartitionHashing` resolves for a step (lines 204–214). -/
def stepPath (p : Partition) : VerifierStep → String
  | VerifierStep.kVerifySourceHash => p.source_path
  | VerifierStep.kVerifyTargetHash => p.target_path

/-- The `partition_size_` the `switch (verifier_step_)` of
`StartPartitionHashing` resolves for a step (lines 204–214). -/
def stepSize (p : Partition) : VerifierStep → Nat
  | VerifierStep.kVerifySourceHash => p.source_size
  | VerifierStep.kVerifyTargetHash => p.target_size

/-- The filesystem data end of partition `pidx` for a `VerifyTarget` pass
(where `partition_size_` is the partition's `target_size`). -/
def fdeIdx (plan : InstallPlan) (pidx : Nat) : Nat :=
  fdeComputed (plan.partitions.getD pidx default)
    (plan.partitions.getD pidx default).target_size

/-- The condition of claim C3 on a partition: the plan writes verity and
the partition reserves a hash tree or FEC region (so that
`ShouldWriteVerity` holds during its `VerifyTarget` pass). -/
def planWritesVerity (plan : InstallPlan) (pidx : Nat) : Prop :=
  plan.write_verity = true ∧
    (0 < (plan.partitions.getD pidx default).hash_tree_size ∨
     0 < (plan.partitions.getD pidx default).fec_size)

/-- The spec's layout invariants (§3, items 1–2) reduced to what the
progress bounds need: on each pass the filesystem data end stays inside
the partition. -/
def PlanBounded (plan : InstallPlan) : Prop :=
  ∀ p ∈ plan.partitions,
    fdeComputed p p.target_size ≤ p.target_size ∧
    fdeComputed p p.source_size ≤ p.source_size

/-- The events `Cleanup(code)` emits when not cancelled. -/
def cleanupEvents (env : Env) (plan : InstallPlan) (code : ErrorCode) :
    List Event :=
  (if plan.write_verity = false ∧ env.snapshotCompression = true then
    [Event.unmapAll] else []) ++
  (if code = ErrorCode.kSuccess ∧ env.hasOutputPipe = true then
    [Event.setOutput plan] else []) ++
  [Event.progress 1 1, Event.complete code]

/-- The `filesystem_data_end_` of the state a step continues with (`none`
when the step ended the run). -/
def nextFde : StepOut → Option Nat
  | StepOut.next s _ => some s.filesystem_data_end
  | StepOut.done _ => none

/-- The `partition_size_` of the state a step continues with. -/
def nextPsize : StepOut → Option Nat
  | StepOut.next s _ => some s.partition_size
  | StepOut.done _ => none

/-- Trace predicate for claim C3: scanning the trace while remembering in
`fin` which partitions have had a successful `verity_writer_->Finalize`,
every issued `VerifyTarget` read of partition `pidx` at an offset at or
past its filesystem data end finds `fin pidx` already set — provided the
plan writes verity for that partition. -/
def ordFrom (plan : InstallPlan) (fin : Nat → Bool) : List Event → Prop
  | [] => True
  | Event.verityFinalize pidx true :: t =>
    ordFrom plan (fun q => if q = pidx then true else fin q) t
  | Event.read pidx VerifierStep.kVerifyTargetHash off _ :: t =>
    (planWritesVerity plan pidx → fdeIdx plan pidx ≤ off → fin pidx = true) ∧
      ordFrom plan fin t
  | _ :: t => ordFrom plan fin t

/-- The finalized-partitions memory after scanning a trace. -/
def finAfter (fin : Nat → Bool) : List Event → Nat → Bool
  | [] => fin
  | Event.verityFinalize pidx true :: t =>
    finAfter (fun q => if q = pidx then true else fin q) t
  | _ :: t => finAfter fin t

/-- Trace predicate for claim C3's re-seek clause: every successful
`verity_writer_->Finalize` on partition `pidx` is immediately followed by
the seek of the `VerifyTarget` descriptor to that partition's filesystem
data end. -/
def FinSeek (plan : InstallPlan) (t : List Event) : Prop :=
  ∀ a pidx b, t = a ++ Event.verityFinalize pidx true :: b →
    ∃ rest, b = Event.seek pidx VerifierStep.kVerifyTargetHash
      (fdeIdx plan pidx) :: rest

/-- Inductive invariant for claim C3, per control point: mid-pass the
stored `filesystem_data_end_` of a `VerifyTarget` pass is the partition's
`fdeIdx`, and inside the `ReadVerityAndFooter` loop of a `VerifyTarget`
pass whose partition writes verity, the finalize of that partition has
already been recorded. -/
def InvC3 (plan : InstallPlan) (s : VState) (fin : Nat → Bool) :
    Ctl → Prop
  | Ctl.startPartitionHashing => True
  | Ctl.finishPartitionHashing => True
  | Ctl.readVerityLoop =>
    s.verifier_step = VerifierStep.kVerifyTargetHash →
      planWritesVerity plan s.partition_index → fin s.partition_index = true
  | _ =>
    s.verifier_step = VerifierStep.kVerifyTargetHash →
      s.filesystem_data_end = fdeIdx plan s.partition_index

/-- Trace predicate for claim C6: progress values are non-decreasing from
lower bound `v`, with the bound resetting to 0 whenever a new hashing pass
starts (`hashingStarted`). -/
def monoFrom (v : ℚ) : List Event → Prop
  | [] => True
  | Event.progress n d :: t => v ≤ progressQ n d ∧ monoFrom (progressQ n d) t
  | Event.hashingStarted _ _ :: t => monoFrom 0 t
  | _ :: t => monoFrom v t

/-- The progress lower bound after scanning a trace. -/
def boundAfter (v : ℚ) : List Event → ℚ
  | [] => v
  | Event.progress n d :: t => boundAfter (progressQ n d) t
  | Event.hashingStarted _ _ :: t => boundAfter 0 t
  | _ :: t => boundAfter v t

/-- The progress value `OnReadDone` would deliver from state `s` (the
exact rational of line 359–361). -/
def curProg (s : VState) : ℚ :=
  progressQ (s.offset + s.partition_index * s.partition_size)
    (s.partition_size * s.plan.partitions.length)

/-- All progress callbacks in a trace carry values in `[0, 1]`. -/
def RangeOK (t : List Event) : Prop :=
  ∀ n d, Event.progress n d ∈ t → 0 ≤ progressQ n d ∧ progressQ n d ≤ 1

/-- Inductive invariant for claim C6, per control point: the progress
lower bound `v` stays in `[0, 1]` and below the value the next callback
would deliver, the partition index stays in range, and mid-pass the
offset stays at or below the filesystem data end, which stays at or
below the partition size. -/
def InvC6 (plan : InstallPlan) (v : ℚ) (s : VState) : Ctl → Prop
  | Ctl.startPartitionHashing =>
    0 ≤ v ∧ v ≤ 1 ∧ s.partition_index ≤ plan.partitions.length
  | Ctl.scheduleFileSystemRead =>
    0 ≤ v ∧ v ≤ 1 ∧ s.partition_index < plan.partitions.length ∧
      s.offset ≤ s.filesystem_data_end ∧
      s.filesystem_data_end ≤ s.partition_size ∧ v ≤ curProg s
  | Ctl.onReadDone n =>
    0 ≤ v ∧ v ≤ 1 ∧ s.partition_index < plan.partitions.length ∧
      s.offset + n ≤ s.filesystem_data_end ∧
      s.filesystem_data_end ≤ s.partition_size ∧ v ≤ curProg s
  | _ =>
    0 ≤ v ∧ v ≤ 1 ∧ s.partition_index < plan.partitions.length

/- Concrete fixtures for witnesses and counterexamples. -/

/-- A benign environment: no snapshot compression, all opens and verity
and hasher operations succeed, reads always return the full request,
every digest is `[7]`. -/
def envA : Env :=
  { snapshotCompression := false
    isDynamic := fun _ _ => false
    openCowOk := fun _ _ => true
    openOk := fun _ => true
    verifyExtents := fun _ _ _ => true
    verityInitOk := fun _ => true
    verityUpdateOk := fun _ _ => true
    verityFinalizeOk := fun _ => true
    hashUpdateOk := fun _ _ => true
    hashFinalizeOk := fun _ _ => true
    hashFn := fun _ _ _ => [7]
    readResult := fun _ _ _ _ req => (req : Int)
    hasOutputPipe := true }

/-- One ordinary 4-byte partition whose target digest matches `envA`. -/
def partA : Partition :=
  { name := "system", source_path := "sp", target_path := "tp",
    readonly_target_path := "", source_size := 4, target_size := 4,
    source_hash := [], target_hash := [7], hash_tree_offset := 0,
    hash_tree_size := 0, fec_offset := 0, fec_size := 0 }

/-- A one-partition plan that verifies successfully under `envA`. -/
def planA : InstallPlan :=
  { source_slot := 0, target_slot := 1, write_verity := false,
    partitions := [partA], untouched_dynamic_partitions := [] }

/-- A verity partition: 4 target bytes with the hash tree at `[2, 4)`. -/
def partV : Partition :=
  { partA with hash_tree_offset := 2, hash_tree_size := 2, fec_offset := 2,
               target_hash := [9] }

/-- A verity plan around `partV`. -/
def planV : InstallPlan :=
  { planA with write_verity := true, partitions := [partV] }

/-- `envA` with every digest `[9]`, matching `partV.target_hash`. -/
def envV : Env := { envA with hashFn := fun _ _ _ => [9] }

/-- A two-chunk partition (262144 = 2 × `kReadFileBufferSize` bytes) whose
target digest will mismatch and whose source digest will match. -/
def partS : Partition :=
  { partA with source_size := 262144, target_size := 262144,
               source_hash := [5], target_hash := [9] }

/-- Plan around `partS`. -/
def planS : InstallPlan := { planA with partitions := [partS] }

/-- Environment whose target-pass digest is `[7]` (mismatching `partS`)
and whose source-pass digest is `[5]` (matching `partS`). -/
def envS : Env :=
  { envA with hashFn := fun _ st _ =>
      match st with
      | VerifierStep.kVerifyTargetHash => [7]
      | VerifierStep.kVerifySourceHash => [5] }

/-- A dynamic verity partition with an empty `target_path` and nonzero
`target_size` (taken through the VABC descriptor path). -/
def partC : Partition :=
  { partV with target_path := "", source_path := "spc" }

/-- Plan around `partC`. -/
def planC : InstallPlan := { planV with partitions := [partC] }

/-- `envV` with snapshot compression in use and every partition dynamic. -/
def envC : Env :=
  { envV with snapshotCompression := true, isDynamic := fun _ _ => true }

/-- A zero-size partition with empty paths. -/
def partZ1 : Partition :=
  { partA with name := "z1", target_path := "", target_size := 0 }

/-- A second zero-size partition with empty paths. -/
def partZ2 : Partition :=
  { partA with name := "z2", target_path := "", target_size := 0 }

/-- A plan made only of zero-size, empty-path partitions. -/
def planZ : InstallPlan := { planA with partitions := [partZ1, partZ2] }

/-- A plan with no partitions but a non-empty untouched-dynamic set. -/
def planE : InstallPlan :=
  { planA with partitions := [],
               untouched_dynamic_partitions := ["odm"] }

/-- `planA` plus a non-empty untouched-dynamic set. -/
def planU : InstallPlan :=
  { planA with untouched_dynamic_partitions := ["odm"] }

/-- `envA` with a failing untouched-partitions extent check. -/
def envE : Env := { envA with verifyExtents := fun _ _ _ => false }

/-- The partition of the C2 counterexample: a nonzero
`hash_tree_offset = 5` (with `fec_offset = 6`, so the `CHECK` passes)
larger than the source pass's `partition_size = source_size = 3`. -/
def partX : Partition :=
  { partA with source_size := 3, hash_tree_offset := 5, hash_tree_size := 1,
               fec_offset := 6, fec_size := 1 }

/-- Plan around `partX`. -/
def planX : InstallPlan := { planA with partitions := [partX] }

/-- A state about to start the `VerifySource` pass on `partX` (reached
after its target digest mismatched). -/
def stX : VState :=
  { initialState planX with verifier_step := VerifierStep.kVerifySourceHash }

/-- A state of a `VerifyTarget` pass over `planV`'s partition, mid-pass
(used by step-level witnesses). -/
def stV : VState :=
  { plan := planV, partition_index := 0,
    verifier_step := VerifierStep.kVerifyTargetHash, partition_size := 4,
    filesystem_data_end := 2, offset := 0, pos := 0, hashed := [],
    bufferSize := kReadFileBufferSize, cancelled := false, finalized := false }

/-- `stV` with the cancellation flag set (as `TerminateProcessing` leaves
it). -/
def stVCan : VState := { stV with cancelled := true }

/-- A state about to finish a `VerifyTarget` pass over `planA`'s
partition. -/
def stFin : VState :=
  { stV with plan := planA, partition_size := 4, filesystem_data_end := 4,
             offset := 4, pos := 4, hashed := [(0, 4, false)] }

/-- `envA` with a failing `verity_writer_->Init`. -/
def envI7 : Env := { envV with verityInitOk := fun _ => false }

/-- `envA` with a failing `verity_writer_->Update`. -/
def envU7 : Env := { envV with verityUpdateOk := fun _ _ => false }

/-- `envA` with a failing `verity_writer_->Finalize`. -/
def envF7 : Env := { envV with verityFinalizeOk := fun _ => false }

/-- C1: at the digest comparison ending a hashing pass
(`FinishPartitionHashing`), a matching target digest advances
`partition_index_` and stays in `VerifyTarget`; a mismatching target
digest with empty `source_hash` completes with
`kNewRootfsVerificationError`; a mismatching target digest with non-empty
`source_hash` switches to `VerifySource` on the same partition without
advancing the index; a matching source digest completes with
`kNewRootfsVerificationError`; a mismatching source digest completes with
`kDownloadStateInitializationError`. -/
theorem finishPartitionHashing_transitions (env : Env) (s : VState)
    (hfin : env.hashFinalizeOk s.partition_index s.verifier_step = true)
    (hcan : s.cancelled = false) :
    (s.verifier_step = VerifierStep.kVerifyTargetHash →
      (s.plan.partitions.getD s.partition_index default).target_hash =
        env.hashFn s.partition_index s.verifier_step s.hashed →
      step env s Ctl.finishPartitionHashing =
        ([], StepOut.next { s with partition_index := s.partition_index + 1 }
          Ctl.startPartitionHashing)) ∧
    (s.verifier_step = VerifierStep.kVerifyTargetHash →
      (s.plan.partitions.getD s.partition_index default).target_hash ≠
        env.hashFn s.partition_index s.verifier_step s.hashed →
      (s.plan.partitions.getD s.partition_index default).source_hash = [] →
      (step env s Ctl.finishPartitionHashing).2 =
        StepOut.done (Outcome.completed ErrorCode.kNewRootfsVerificationError)) ∧
    (s.verifier_step = VerifierStep.kVerifyTargetHash →
      (s.plan.partitions.getD s.partition_index default).target_hash ≠
        env.hashFn s.partition_index s.verifier_step s.hashed →
      (s.plan.partitions.getD s.partition_index default).source_hash ≠ [] →
      step env s Ctl.finishPartitionHashing =
        ([], StepOut.next { s with verifier_step := VerifierStep.kVerifySourceHash }
          Ctl.startPartitionHashing)) ∧
    (s.verifier_step = VerifierStep.kVerifySourceHash →
      (s.plan.partitions.getD s.partition_index default).source_hash =
        env.hashFn s.partition_index s.verifier_step s.hashed →
      (step env s Ctl.finishPartitionHashing).2 =
        StepOut.done (Outcome.completed ErrorCode.kNewRootfsVerificationError)) ∧
    (s.verifier_step = VerifierStep.kVerifySourceHash →
      (s.plan.partitions.getD s.partition_index default).source_hash ≠
        env.hashFn s.partition_index s.verifier_step s.hashed →
      (step env s Ctl.finishPartitionHashing).2 =
        StepOut.done (Outcome.completed ErrorCode.kDownloadStateInitializationError)) := by
  obtain ⟨plan, pidx, vstep, psize, fde, off, pos, hashed, bsz, can, fin⟩ := s
  simp only at hfin hcan ⊢
  subst hcan
  refine ⟨?_, ?_, ?_, ?_, ?_⟩ <;> intro hs h1 <;> try intro h2
  all_goals subst hs
  · simp at h1
    simp [step, hfin, h1]
  · simp at h1 h2
    simp [step, hfin, h1, h2, cleanupStep, cleanup]
  · simp at h1 h2
    simp [step, hfin, h1, h2]
  · simp at h1
    simp [step, hfin, h1, cleanupStep, cleanup]
  · simp at h1
    simp [step, hfin, h1, cleanupStep, cleanup]

/-- Witness for C1: a concrete matching `VerifyTarget` comparison advances
the partition index. -/
theorem finishPartitionHashing_transitions_witness :
    step envA stFin Ctl.finishPartitionHashing =
      ([], StepOut.next { stFin with partition_index := stFin.partition_index + 1 }
        Ctl.startPartitionHashing) :=
  (finishPartitionHashing_transitions envA stFin (by decide) (by decide)).1
    (by decide) (by decide)

/-- Counterexample to C2 as stated: on the `VerifySource` pass of `partX`
(`hash_tree_offset = 5`, `fec_offset = 6`, `source_size = 3`) the code
stores `filesystem_data_end_ = 5`, while the spec's
`min(hash_tree_offset if >0, fec_offset if >0, partition_size)` is 3. -/
theorem fde_not_spec_min_cex :
    nextFde (step envA stX Ctl.startPartitionHashing).2 = some 5 ∧
    nextPsize (step envA stX Ctl.startPartitionHashing).2 = some 3 ∧
    specFilesystemDataEnd partX 3 = 3 ∧ (5 : Nat) ≠ 3 := by decide

/-- C2 (amended): the `filesystem_data_end_` the code computes is the
first nonzero of `hash_tree_offset`, `fec_offset`, else `partition_size`;
this equals the spec's `min(hash_tree_offset if >0, fec_offset if >0,
partition_size)` provided `hash_tree_offset ≤ fec_offset` (the code's
`CHECK`) and the selected nonzero offset does not exceed `partition_size`
— which holds on every pass whose layout satisfies the spec's §3
invariants, but can fail on a `VerifySource` pass where `partition_size`
is `source_size`. -/
theorem fde_eq_spec_min_of_bounded (partition : Partition)
    (partition_size : Nat)
    (hck : partition.hash_tree_offset ≤ partition.fec_offset)
    (hht : 0 < partition.hash_tree_offset →
      partition.hash_tree_offset ≤ partition_size)
    (hfec : partition.hash_tree_offset = 0 → 0 < partition.fec_offset →
      partition.fec_offset ≤ partition_size) :
    fdeComputed partition partition_size =
      specFilesystemDataEnd partition partition_size ∧
    ∀ env s ev ev' s' c, afterFdInit env s ev = (ev', StepOut.next s' c) →
      s'.filesystem_data_end =
        fdeComputed (s.plan.partitions.getD s.partition_index default)
          s.partition_size := by
  constructor
  · have hA : partition.hash_tree_offset = 0 ∨
        partition.hash_tree_offset ≤ partition_size := by
      rcases Nat.eq_zero_or_pos partition.hash_tree_offset with h | h
      · exact Or.inl h
      · exact Or.inr (hht h)
    have hB : partition.hash_tree_offset ≠ 0 ∨ partition.fec_offset = 0 ∨
        partition.fec_offset ≤ partition_size := by
      rcases Nat.eq_zero_or_pos partition.hash_tree_offset with h | h
      · rcases Nat.eq_zero_or_pos partition.fec_offset with f | f
        · exact Or.inr (Or.inl f)
        · exact Or.inr (Or.inr (hfec h f))
      · exact Or.inl (Nat.pos_iff_ne_zero.mp h)
    unfold fdeComputed specFilesystemDataEnd
    split_ifs <;> omega
  · intro env s ev ev' s' c h
    simp only [afterFdInit] at h
    split_ifs at h <;>
      first
        | (rw [Prod.mk.injEq] at h; obtain ⟨-, h⟩ := h; cases h; rfl)
        | (exact absurd h (by simp [cleanupStep]))

/-- Witness for C2 (amended): on a `VerifyTarget` pass of the verity
partition `partV` the code's value and the spec's formula agree. -/
theorem fde_eq_spec_min_of_bounded_witness :
    fdeComputed partV 4 = specFilesystemDataEnd partV 4 :=
  (fde_eq_spec_min_of_bounded partV 4 (by decide) (by decide) (by decide)).1

/-- C7: a `verity_writer_->Init` failure completes the stage with
`kVerityCalculationError`; a `verity_writer_->Update` failure completes
with `kVerityCalculationError`; a `verity_writer_->Finalize` failure
completes with `kFilesystemVerifierError`. -/
theorem verity_failure_error_codes :
    (∀ env s ev,
      (s.plan.partitions.getD s.partition_index default).hash_tree_offset ≤
        (s.plan.partitions.getD s.partition_index default).fec_offset →
      shouldWriteVerity s = true → s.cancelled = false →
      env.verityInitOk s.partition_index = false →
      (afterFdInit env s ev).2 =
        StepOut.done (Outcome.completed ErrorCode.kVerityCalculationError)) ∧
    (∀ env s n, s.cancelled = false → n ≠ 0 →
      env.hashUpdateOk s.partition_index s.offset = true →
      shouldWriteVerity s = true →
      env.verityUpdateOk s.partition_index s.offset = false →
      (step env s (Ctl.onReadDone n)).2 =
        StepOut.done (Outcome.completed ErrorCode.kVerityCalculationError)) ∧
    (∀ env s, shouldWriteVerity s = true → s.cancelled = false →
      env.verityFinalizeOk s.partition_index = false →
      (step env s Ctl.readVerityAndFooter).2 =
        StepOut.done (Outcome.completed ErrorCode.kFilesystemVerifierError)) := by
  refine ⟨?_, ?_, ?_⟩
  · intro env s ev hck hsw hcan hvi
    simp [shouldWriteVerity] at hsw
    simp at hck
    simp [afterFdInit, hck, shouldWriteVerity, hsw, hvi, cleanupStep, cleanup,
      hcan]
  · intro env s n hcan hn hup hsw hvu
    simp [shouldWriteVerity] at hsw
    simp [step, hcan, hn, hup, shouldWriteVerity, hsw, hvu, cleanupStep,
      cleanup]
  · intro env s hsw hcan hvf
    simp [step, hsw, hvf, cleanupStep, cleanup, hcan]

/-- Witness for C7: the three failure sites at concrete inputs. -/
theorem verity_failure_error_codes_witness :
    (afterFdInit envI7 stV []).2 =
      StepOut.done (Outcome.completed ErrorCode.kVerityCalculationError) ∧
    (step envU7 stV (Ctl.onReadDone 2)).2 =
      StepOut.done (Outcome.completed ErrorCode.kVerityCalculationError) ∧
    (step envF7 stV Ctl.readVerityAndFooter).2 =
      StepOut.done (Outcome.completed ErrorCode.kFilesystemVerifierError) :=
  ⟨verity_failure_error_codes.1 envI7 stV [] (by decide) (by decide)
      (by decide) (by decide),
   verity_failure_error_codes.2.1 envU7 stV 2 (by decide) (by decide)
      (by decide) (by decide) (by decide),
   verity_failure_error_codes.2.2 envF7 stV (by decide) (by decide)
      (by decide)⟩

/-- C8: once the cancellation flag is set, `TerminateProcessing`'s own
`Cleanup` call and the next dispatched `OnReadDone` both end without any
terminal `ActionComplete`, without a final progress update and without
setting the output object — the only event possibly emitted is the
dynamic-partition unmap of `Cleanup`. -/
theorem cancelled_suppresses_terminal (env : Env) (s : VState) (n : Nat)
    (hcan : s.cancelled = true) :
    (terminateProcessing env s).2 = Outcome.cancelled ∧
    (step env s (Ctl.onReadDone n)).2 = StepOut.done Outcome.cancelled ∧
    (∀ e, e ∈ (terminateProcessing env s).1 → e = Event.unmapAll) ∧
    (∀ e, e ∈ (step env s (Ctl.onReadDone n)).1 → e = Event.unmapAll) := by
  refine ⟨?_, ?_, ?_, ?_⟩ <;>
    simp [terminateProcessing, cleanup, step, cleanupStep, hcan]

/-- Witness for C8: cancellation at a concrete state. -/
theorem cancelled_suppresses_terminal_witness :
    (terminateProcessing envA stVCan).2 = Outcome.cancelled ∧
    (step envA stVCan (Ctl.onReadDone 2)).2 =
      StepOut.done Outcome.cancelled :=
  ⟨(cancelled_suppresses_terminal envA stVCan 2 (by decide)).1,
   (cancelled_suppresses_terminal envA stVCan 2 (by decide)).2.1⟩

/-- C10: on an input plan with no partitions, `PerformAction` completes
immediately with `kSuccess`, forwarding the plan when there is an output
pipe and emitting nothing else — no descriptor open, no progress callback
(in particular no final 1.0), no extent check, no unmap. -/
theorem performAction_empty_partitions (env : Env) (plan : InstallPlan)
    (fuel : Nat) (h : plan.partitions = []) :
    performAction env plan fuel =
      ((if env.hasOutputPipe then [Event.setOutput plan] else []) ++
        [Event.complete ErrorCode.kSuccess],
       Outcome.completed ErrorCode.kSuccess) := by
  simp [performAction, h]

/-- Witness for C10: the empty plan `planE`. -/
theorem performAction_empty_partitions_witness :
    performAction envA planE 3 =
      ([Event.setOutput planE, Event.complete ErrorCode.kSuccess],
       Outcome.completed ErrorCode.kSuccess) := by
  simpa using performAction_empty_partitions envA planE 3 (by decide)

/-- `Cleanup` with the cancellation flag clear emits exactly
`cleanupEvents` and completes the action with its code. -/
theorem cleanup_not_cancelled (env : Env) (plan : InstallPlan)
    (code : ErrorCode) :
    cleanup env plan false code =
      (cleanupEvents env plan code, Outcome.completed code) := by
  simp [cleanup, cleanupEvents]

/-- The only output object `Cleanup` can set is the stored install plan. -/
theorem cleanup1_setOutput (env : Env) (p : InstallPlan) (can : Bool)
    (code : ErrorCode) (q : InstallPlan)
    (hm : Event.setOutput q ∈ (cleanup env p can code).1) : q = p := by
  simp only [cleanup] at hm
  split_ifs at hm <;> simp at hm <;> tauto

set_option maxHeartbeats 1000000 in
/-- The only output object any step can set is the state's install plan. -/
theorem step_setOutput_mem (env : Env) (s : VState) (c : Ctl)
    (q : InstallPlan) (hm : Event.setOutput q ∈ (step env s c).1) :
    q = s.plan := by
  obtain ⟨plan, pidx, vstep, psize, fde, off, pos, hashed, bsz, can, fin⟩ := s
  cases c <;> cases vstep <;>
    simp only [step, afterFdInit, cleanupStep] at hm <;>
    split_ifs at hm <;>
    first
      | exact cleanup1_setOutput _ _ _ _ _ hm
      | (rcases List.mem_append.mp hm with h | h <;>
          first
            | (exfalso; revert h; simp; done)
            | exact cleanup1_setOutput _ _ _ _ _ h)
      | (rcases List.mem_cons.mp hm with h | h <;>
          first
            | (exfalso; revert h; simp; done)
            | exact cleanup1_setOutput _ _ _ _ _ h)
      | (exfalso; revert hm; simp; done)

set_option maxHeartbeats 1000000 in
/-- A step never changes the stored install plan or the cancellation
flag (the C++ takes one non-const reference into `install_plan_`, in
`FinishPartitionHashing`, and only reads through it). -/
theorem step_next_inv (env : Env) (s : VState) (c : Ctl) (s' : VState)
    (c' : Ctl) (h : (step env s c).2 = StepOut.next s' c') :
    s'.plan = s.plan ∧ s'.cancelled = s.cancelled := by
  obtain ⟨plan, pidx, vstep, psize, fde, off, pos, hashed, bsz, can, fin⟩ := s
  cases c <;> cases vstep <;>
    simp only [step, afterFdInit] at h <;>
    split_ifs at h <;>
    simp only [cleanupStep] at h <;>
    (cases h <;> exact ⟨rfl, rfl⟩)

set_option maxHeartbeats 1000000 in
/-- Every step that ends the run with `ActionComplete(code)` emitted the
`Cleanup(code)` event suffix. -/
theorem step_done_completed (env : Env) (s : VState) (c : Ctl)
    (code : ErrorCode) (hcan : s.cancelled = false)
    (h : (step env s c).2 = StepOut.done (Outcome.completed code)) :
    ∃ pre, (step env s c).1 = pre ++ cleanupEvents env s.plan code := by
  obtain ⟨plan, pidx, vstep, psize, fde, off, pos, hashed, bsz, can, fin⟩ := s
  simp only at hcan
  subst hcan
  cases c <;> cases vstep <;>
    simp only [step, afterFdInit, cleanupStep, cleanup_not_cancelled] at h ⊢ <;>
    split_ifs at h ⊢ <;>
    simp at h <;>
    (subst h; first | exact ⟨_, rfl⟩ | exact ⟨[_], rfl⟩ | exact ⟨[], rfl⟩)

/-- Over a whole run, every output object set is the initial plan. -/
theorem runLoop_setOutput_mem (env : Env) : ∀ fuel s c q,
    Event.setOutput q ∈ (runLoop env fuel s c).1 → q = s.plan := by
  intro fuel
  induction fuel with
  | zero => intro s c q hm; simp [runLoop] at hm
  | succ fuel ih =>
    intro s c q hm
    rcases hstep : step env s c with ⟨ev, so⟩
    cases so with
    | done o =>
      simp only [runLoop, hstep] at hm
      exact step_setOutput_mem env s c q (by rw [hstep]; exact hm)
    | next s' c' =>
      simp only [runLoop, hstep, List.mem_append] at hm
      rcases hm with hm | hm
      · exact step_setOutput_mem env s c q (by rw [hstep]; exact hm)
      · have hq := ih s' c' q hm
        have hinv := step_next_inv env s c s' c' (by rw [hstep])
        rw [hq, hinv.1]

/-- A run that completes with `code` ends in the `Cleanup(code)` event
suffix over the initial plan. -/
theorem runLoop_completed_suffix (env : Env) : ∀ fuel s c code,
    s.cancelled = false →
    (runLoop env fuel s c).2 = Outcome.completed code →
    ∃ t, (runLoop env fuel s c).1 = t ++ cleanupEvents env s.plan code := by
  intro fuel
  induction fuel with
  | zero => intro s c code _ h2; simp [runLoop] at h2
  | succ fuel ih =>
    intro s c code hcan h2
    rcases hstep : step env s c with ⟨ev, so⟩
    cases so with
    | done o =>
      simp only [runLoop, hstep] at h2 ⊢
      subst h2
      obtain ⟨pre, hpre⟩ := step_done_completed env s c code hcan (by rw [hstep])
      rw [hstep] at hpre
      exact ⟨pre, hpre⟩
    | next s' c' =>
      simp only [runLoop, hstep] at h2 ⊢
      have hinv := step_next_inv env s c s' c' (by rw [hstep])
      obtain ⟨t, ht⟩ := ih s' c' code (by rw [hinv.2]; exact hcan) h2
      exact ⟨ev ++ t, by rw [ht, hinv.1, List.append_assoc]⟩

/-- C9: every run that ends in `kSuccess` (with an output pipe present)
forwards exactly the input `InstallPlan` to the output pipe: the plan it
sets is the input plan, field for field, and no other plan is ever set. -/
theorem success_forwards_input_plan (env : Env) (plan : InstallPlan)
    (fuel : Nat)
    (hs : (performAction env plan fuel).2 =
      Outcome.completed ErrorCode.kSuccess)
    (hpipe : env.hasOutputPipe = true) :
    Event.setOutput plan ∈ (performAction env plan fuel).1 ∧
    ∀ q, Event.setOutput q ∈ (performAction env plan fuel).1 → q = plan := by
  by_cases hemp : plan.partitions = []
  · constructor
    · simp [performAction, hemp, hpipe]
    · intro q hq
      simp [performAction, hemp, hpipe] at hq
      exact hq
  · rw [performAction, if_neg hemp] at hs ⊢
    constructor
    · obtain ⟨t, ht⟩ := runLoop_completed_suffix env fuel (initialState plan)
        Ctl.startPartitionHashing ErrorCode.kSuccess rfl hs
      rw [ht]
      simp [cleanupEvents, hpipe, initialState]
    · intro q hq
      exact runLoop_setOutput_mem env fuel (initialState plan)
        Ctl.startPartitionHashing q hq

/-- Witness for C9: the happy-path run over `planA` forwards `planA`. -/
theorem success_forwards_input_plan_witness :
    Event.setOutput planA ∈ (performAction envA planA 40).1 :=
  (success_forwards_input_plan envA planA 40 (by decide) (by decide)).1

set_option maxHeartbeats 1000000 in
/-- The only step that can complete with `kSuccess` while the plan has a
non-empty untouched-dynamic set is the end-of-partitions branch of
`StartPartitionHashing`, right after a successful extent check. -/
theorem step_success_extents (env : Env) (s : VState) (c : Ctl)
    (hcan : s.cancelled = false)
    (hu : s.plan.untouched_dynamic_partitions ≠ [])
    (h : (step env s c).2 =
      StepOut.done (Outcome.completed ErrorCode.kSuccess)) :
    (step env s c).1 =
      Event.verifyExtents true ::
        cleanupEvents env s.plan ErrorCode.kSuccess := by
  obtain ⟨plan, pidx, vstep, psize, fde, off, pos, hashed, bsz, can, fin⟩ := s
  simp only at hcan hu
  subst hcan
  cases c <;> cases vstep <;>
    simp only [step, afterFdInit, cleanupStep, cleanup_not_cancelled] at h ⊢ <;>
    split_ifs at h ⊢ <;>
    simp_all

set_option maxHeartbeats 1000000 in
/-- A step that reports a failed extent check completes with
`kFilesystemVerifierError`. -/
theorem step_extents_false (env : Env) (s : VState) (c : Ctl)
    (hcan : s.cancelled = false)
    (hm : Event.verifyExtents false ∈ (step env s c).1) :
    (step env s c).2 =
      StepOut.done (Outcome.completed ErrorCode.kFilesystemVerifierError) := by
  obtain ⟨plan, pidx, vstep, psize, fde, off, pos, hashed, bsz, can, fin⟩ := s
  simp only at hcan
  subst hcan
  cases c <;> cases vstep <;>
    simp only [step, afterFdInit, cleanupStep, cleanup_not_cancelled] at hm ⊢ <;>
    split_ifs at hm ⊢ <;>
    first
      | rfl
      | (exfalso; revert hm; simp [cleanupEvents]; done)

/-- Run-level form of `step_success_extents`. -/
theorem runLoop_success_extents (env : Env) : ∀ fuel s c,
    s.cancelled = false → s.plan.untouched_dynamic_partitions ≠ [] →
    (runLoop env fuel s c).2 = Outcome.completed ErrorCode.kSuccess →
    ∃ t, (runLoop env fuel s c).1 =
      t ++ Event.verifyExtents true ::
        cleanupEvents env s.plan ErrorCode.kSuccess := by
  intro fuel
  induction fuel with
  | zero => intro s c _ _ h2; simp [runLoop] at h2
  | succ fuel ih =>
    intro s c hcan hu h2
    rcases hstep : step env s c with ⟨ev, so⟩
    cases so with
    | done o =>
      simp only [runLoop, hstep] at h2 ⊢
      subst h2
      have := step_success_extents env s c hcan hu (by rw [hstep])
      rw [hstep] at this
      exact ⟨[], this⟩
    | next s' c' =>
      simp only [runLoop, hstep] at h2 ⊢
      have hinv := step_next_inv env s c s' c' (by rw [hstep])
      obtain ⟨t, ht⟩ := ih s' c' (by rw [hinv.2]; exact hcan)
        (by rw [hinv.1]; exact hu) h2
      exact ⟨ev ++ t, by rw [ht, hinv.1, List.append_assoc]⟩

/-- Run-level form of `step_extents_false`. -/
theorem runLoop_extents_false (env : Env) : ∀ fuel s c,
    s.cancelled = false →
    Event.verifyExtents false ∈ (runLoop env fuel s c).1 →
    (runLoop env fuel s c).2 =
      Outcome.completed ErrorCode.kFilesystemVerifierError := by
  intro fuel
  induction fuel with
  | zero => intro s c _ hm; simp [runLoop] at hm
  | succ fuel ih =>
    intro s c hcan hm
    rcases hstep : step env s c with ⟨ev, so⟩
    cases so with
    | done o =>
      simp only [runLoop, hstep] at hm ⊢
      have := step_extents_false env s c hcan (by rw [hstep]; exact hm)
      rw [hstep] at this
      cases this
      rfl
    | next s' c' =>
      simp only [runLoop, hstep, List.mem_append] at hm ⊢
      rcases hm with hm | hm
      · have := step_extents_false env s c hcan (by rw [hstep]; exact hm)
        rw [hstep] at this
        cases this
      · have hinv := step_next_inv env s c s' c' (by rw [hstep])
        exact ih s' c' (by rw [hinv.2]; exact hcan) hm

/-- C4 (amended): for every plan with at least one partition and a
non-empty untouched-dynamic set, the run reaches `kSuccess` only through a
`VerifyExtentsForUntouchedPartitions` call that returned true — the trace
ends with that check followed directly by the success cleanup, after all
hashing — and a reported false extent check makes the run complete with
`kFilesystemVerifierError`.  (The partitions ≠ [] hypothesis is required:
an empty plan short-circuits in `PerformAction` before the check.) -/
theorem untouched_extents_gate (env : Env) (plan : InstallPlan) (fuel : Nat)
    (hne : plan.partitions ≠ [])
    (hu : plan.untouched_dynamic_partitions ≠ []) :
    ((performAction env plan fuel).2 =
        Outcome.completed ErrorCode.kSuccess →
      ∃ t, (performAction env plan fuel).1 =
        t ++ Event.verifyExtents true ::
          cleanupEvents env plan ErrorCode.kSuccess) ∧
    (Event.verifyExtents false ∈ (performAction env plan fuel).1 →
      (performAction env plan fuel).2 =
        Outcome.completed ErrorCode.kFilesystemVerifierError) := by
  rw [performAction, if_neg hne]
  exact ⟨fun hs => runLoop_success_extents env fuel _ _ rfl hu hs,
         fun hm => runLoop_extents_false env fuel _ _ rfl hm⟩

/-- Witness for C4 (amended): the one-partition plan `planU` succeeds
through a passing extent check. -/
theorem untouched_extents_gate_witness :
    ∃ t, (performAction envA planU 40).1 =
      t ++ Event.verifyExtents true ::
        cleanupEvents envA planU ErrorCode.kSuccess :=
  (untouched_extents_gate envA planU 40 (by decide) (by decide)).1 (by decide)

/-- Counterexample to C4 as stated: a plan with no partitions but a
non-empty untouched-dynamic set completes with `kSuccess` without the
extent check ever being invoked (here the check would have returned
false). -/
theorem untouched_extents_gate_cex :
    performAction envE planE 5 =
      ([Event.setOutput planE, Event.complete ErrorCode.kSuccess],
       Outcome.completed ErrorCode.kSuccess) ∧
    planE.untouched_dynamic_partitions = ["odm"] ∧
    envE.verifyExtents 0 1 ["odm"] = false ∧
    Event.verifyExtents true ∉ (performAction envE planE 5).1 := by decide

/-- The skip-empty branch of `StartPartitionHashing` (lines 225–232):
empty resolved path and zero resolved size advance to the next partition
(outside the VABC descriptor path). -/
theorem start_skip_empty (env : Env) (s : VState)
    (hne : s.partition_index ≠ s.plan.partitions.length)
    (hvabc : ¬(env.snapshotCompression = true ∧
      s.verifier_step = VerifierStep.kVerifyTargetHash ∧
      env.isDynamic (s.plan.partitions.getD s.partition_index default).name
        s.plan.target_slot = true))
    (hpath : stepPath (s.plan.partitions.getD s.partition_index default)
      s.verifier_step = "")
    (hsize : stepSize (s.plan.partitions.getD s.partition_index default)
      s.verifier_step = 0) :
    step env s Ctl.startPartitionHashing =
      ([Event.hashingStarted s.partition_index s.verifier_step],
       StepOut.next
         { s with partition_size := 0,
                  partition_index := s.partition_index + 1 }
         Ctl.startPartitionHashing) := by
  obtain ⟨plan, pidx, vstep, psize, fde, off, pos, hashed, bsz, can, fin⟩ := s
  simp only at hne hvabc hpath hsize ⊢
  cases vstep
  case kVerifySourceHash =>
    simp [stepPath, stepSize] at hpath hsize
    simp [step, hne, hpath, hsize]
  case kVerifyTargetHash =>
    simp [stepPath, stepSize] at hpath hsize
    simp at hvabc
    cases hsc : env.snapshotCompression
    · simp [step, hne, hsc, hpath, hsize]
    · simp [step, hne, hsc, hvabc hsc, hpath, hsize]

/-- The missing-device branch of `StartPartitionHashing` (lines 233–237):
empty resolved path with nonzero resolved size completes the stage with
`kFilesystemVerifierError` (outside the VABC descriptor path). -/
theorem start_empty_path_error (env : Env) (s : VState)
    (hne : s.partition_index ≠ s.plan.partitions.length)
    (hvabc : ¬(env.snapshotCompression = true ∧
      s.verifier_step = VerifierStep.kVerifyTargetHash ∧
      env.isDynamic (s.plan.partitions.getD s.partition_index default).name
        s.plan.target_slot = true))
    (hpath : stepPath (s.plan.partitions.getD s.partition_index default)
      s.verifier_step = "")
    (hsize : stepSize (s.plan.partitions.getD s.partition_index default)
      s.verifier_step ≠ 0)
    (hcan : s.cancelled = false) :
    (step env s Ctl.startPartitionHashing).2 =
      StepOut.done (Outcome.completed ErrorCode.kFilesystemVerifierError) := by
  obtain ⟨plan, pidx, vstep, psize, fde, off, pos, hashed, bsz, can, fin⟩ := s
  simp only at hne hvabc hpath hsize hcan ⊢
  subst hcan
  cases vstep
  case kVerifySourceHash =>
    simp [stepPath, stepSize] at hpath hsize
    simp [step, hne, hpath, hsize, cleanupStep, cleanup_not_cancelled]
  case kVerifyTargetHash =>
    simp [stepPath, stepSize] at hpath hsize
    simp at hvabc
    cases hsc : env.snapshotCompression
    · simp [step, hne, hsc, hpath, hsize, cleanupStep, cleanup_not_cancelled]
    · simp [step, hne, hsc, hvabc hsc, hpath, hsize, cleanupStep,
        cleanup_not_cancelled]

/-- End of partitions with no untouched-dynamic set: `Cleanup(kSuccess)`. -/
theorem start_done_no_untouched (env : Env) (s : VState)
    (hend : s.partition_index = s.plan.partitions.length)
    (hu : s.plan.untouched_dynamic_partitions = [])
    (hcan : s.cancelled = false) :
    (step env s Ctl.startPartitionHashing).2 =
      StepOut.done (Outcome.completed ErrorCode.kSuccess) := by
  obtain ⟨plan, pidx, vstep, psize, fde, off, pos, hashed, bsz, can, fin⟩ := s
  simp only at hend hu hcan ⊢
  subst hcan
  simp [step, hend, hu, cleanup_not_cancelled]

/-- A run over a plan of only zero-size, empty-path, non-VABC partitions
skips them all and completes with `kSuccess`. -/
theorem runLoop_all_skip (env : Env) (plan : InstallPlan)
    (hall : ∀ p ∈ plan.partitions, p.target_path = "" ∧ p.target_size = 0 ∧
      ¬(env.snapshotCompression = true ∧
        env.isDynamic p.name plan.target_slot = true))
    (hu : plan.untouched_dynamic_partitions = []) : ∀ fuel s,
    s.plan = plan → s.cancelled = false →
    s.verifier_step = VerifierStep.kVerifyTargetHash →
    s.partition_index ≤ plan.partitions.length →
    plan.partitions.length - s.partition_index + 1 ≤ fuel →
    (runLoop env fuel s Ctl.startPartitionHashing).2 =
      Outcome.completed ErrorCode.kSuccess := by
  intro fuel
  induction fuel with
  | zero => intro s _ _ _ _ hfuel; omega
  | succ fuel ih =>
    intro s hplan hcan hstep hle hfuel
    by_cases hend : s.partition_index = s.plan.partitions.length
    · have hdone := start_done_no_untouched env s hend (by rw [hplan]; exact hu)
        hcan
      rcases hs : step env s Ctl.startPartitionHashing with ⟨ev, so⟩
      rw [hs] at hdone
      simp only [runLoop, hs]
      simp only at hdone
      subst hdone
      rfl
    · have hlt : s.partition_index < plan.partitions.length := by
        rw [hplan] at hend
        omega
      have hmem : plan.partitions.getD s.partition_index default ∈
          plan.partitions := by
        rw [List.getD_eq_getElem plan.partitions default hlt]
        exact List.getElem_mem hlt
      obtain ⟨hp1, hp2, hp3⟩ := hall _ hmem
      have hskip := start_skip_empty env s
        (by rw [hplan]; omega)
        (by
          rintro ⟨a, -, c⟩
          rw [hplan] at c
          exact hp3 ⟨a, c⟩)
        (by rw [hplan, hstep]; simpa [stepPath] using hp1)
        (by rw [hplan, hstep]; simpa [stepSize] using hp2)
      simp only [runLoop, hskip]
      apply ih
      · simpa using hplan
      · simpa using hcan
      · simpa using hstep
      · simpa using hlt
      · simp
        omega

/-- Whole-run form of `runLoop_all_skip`, from `PerformAction`. -/
theorem performAction_all_skip (env : Env) (plan : InstallPlan) (fuel : Nat)
    (hall : ∀ p ∈ plan.partitions, p.target_path = "" ∧ p.target_size = 0 ∧
      ¬(env.snapshotCompression = true ∧
        env.isDynamic p.name plan.target_slot = true))
    (hu : plan.untouched_dynamic_partitions = [])
    (hfuel : plan.partitions.length + 1 ≤ fuel) :
    (performAction env plan fuel).2 = Outcome.completed ErrorCode.kSuccess := by
  by_cases hemp : plan.partitions = []
  · simp [performAction, hemp]
  · rw [performAction, if_neg hemp]
    exact runLoop_all_skip env plan hall hu fuel (initialState plan) rfl rfl
      rfl (Nat.zero_le _) (by simpa using hfuel)

/-- C5 (amended): for a partition not taken through the VABC descriptor
path, an empty resolved step path with resolved size 0 is skipped (the
verifier recurses on the next partition), an empty resolved step path
with nonzero resolved size completes the stage with
`kFilesystemVerifierError`, and a plan consisting only of such zero-size
partitions (with no untouched-dynamic set) completes with `kSuccess`.
When snapshot compression is in use, the step is `VerifyTarget` and the
partition is dynamic, the empty-path checks are bypassed in favour of
`InitializeFdVABC`. -/
theorem empty_path_skip_or_fail :
    (∀ env s,
      s.partition_index ≠ s.plan.partitions.length →
      ¬(env.snapshotCompression = true ∧
        s.verifier_step = VerifierStep.kVerifyTargetHash ∧
        env.isDynamic (s.plan.partitions.getD s.partition_index default).name
          s.plan.target_slot = true) →
      stepPath (s.plan.partitions.getD s.partition_index default)
        s.verifier_step = "" →
      stepSize (s.plan.partitions.getD s.partition_index default)
        s.verifier_step = 0 →
      step env s Ctl.startPartitionHashing =
        ([Event.hashingStarted s.partition_index s.verifier_step],
         StepOut.next
           { s with partition_size := 0,
                    partition_index := s.partition_index + 1 }
           Ctl.startPartitionHashing)) ∧
    (∀ env s,
      s.partition_index ≠ s.plan.partitions.length →
      ¬(env.snapshotCompression = true ∧
        s.verifier_step = VerifierStep.kVerifyTargetHash ∧
        env.isDynamic (s.plan.partitions.getD s.partition_index default).name
          s.plan.target_slot = true) →
      stepPath (s.plan.partitions.getD s.partition_index default)
        s.verifier_step = "" →
      stepSize (s.plan.partitions.getD s.partition_index default)
        s.verifier_step ≠ 0 →
      s.cancelled = false →
      (step env s Ctl.startPartitionHashing).2 =
        StepOut.done (Outcome.completed ErrorCode.kFilesystemVerifierError)) ∧
    (∀ env plan fuel,
      (∀ p ∈ plan.partitions, p.target_path = "" ∧ p.target_size = 0 ∧
        ¬(env.snapshotCompression = true ∧
          env.isDynamic p.name plan.target_slot = true)) →
      plan.untouched_dynamic_partitions = [] →
      plan.partitions.length + 1 ≤ fuel →
      (performAction env plan fuel).2 =
        Outcome.completed ErrorCode.kSuccess) :=
  ⟨start_skip_empty, start_empty_path_error, performAction_all_skip⟩

/-- Witness for C5 (amended): the two-partition all-skip plan `planZ`
ends in `kSuccess`. -/
theorem empty_path_skip_or_fail_witness :
    (performAction envA planZ 4).2 = Outcome.completed ErrorCode.kSuccess :=
  empty_path_skip_or_fail.2.2 envA planZ 4 (by decide) (by decide) (by decide)

/-- Counterexample to C5 as stated: `planC`'s only partition has an empty
`target_path` and nonzero `target_size`, yet under snapshot compression
with a dynamic partition the stage takes the VABC descriptor path and
completes with `kSuccess`, not `kFilesystemVerifierError`. -/
theorem empty_path_skip_or_fail_cex :
    (planC.partitions.getD 0 default).target_path = "" ∧
    0 < (planC.partitions.getD 0 default).target_size ∧
    (performAction envC planC 20).2 = Outcome.completed ErrorCode.kSuccess ∧
    Outcome.completed ErrorCode.kSuccess ≠
      Outcome.completed ErrorCode.kFilesystemVerifierError := by decide

/-- `ordFrom` splits across concatenation, threading the finalize memory. -/
theorem ordFrom_append (plan : InstallPlan) : ∀ (a b : List Event)
    (fin : Nat → Bool),
    ordFrom plan fin (a ++ b) ↔
      (ordFrom plan fin a ∧ ordFrom plan (finAfter fin a) b) := by
  intro a
  induction a with
  | nil => intro b fin; simp [ordFrom, finAfter]
  | cons e t ih =>
    intro b fin
    cases e <;> try (simp [ordFrom, finAfter, ih]; done)
    case verityFinalize pidx ok =>
      cases ok <;> simp [ordFrom, finAfter, ih]
    case read pidx st off req =>
      cases st <;> simp [ordFrom, finAfter, ih, and_assoc]

/-- A partition marked finalized after a trace was finalized in it or before. -/
theorem finAfter_mem : ∀ (t : List Event) (fin : Nat → Bool) (pidx : Nat),
    finAfter fin t pidx = true →
    fin pidx = true ∨ Event.verityFinalize pidx true ∈ t := by
  intro t
  induction t with
  | nil => intro fin pidx h; exact Or.inl h
  | cons e t ih =>
    intro fin pidx h
    by_cases hf : ∃ p, e = Event.verityFinalize p true
    · obtain ⟨p, rfl⟩ := hf
      rw [show finAfter fin (Event.verityFinalize p true :: t) =
          finAfter (fun q => if q = p then true else fin q) t from rfl] at h
      rcases ih _ _ h with h' | h'
      · by_cases hq : pidx = p
        · subst hq
          exact Or.inr (List.mem_cons_self _ _)
        · simp [hq] at h'
          exact Or.inl h'
      · exact Or.inr (List.mem_cons_of_mem _ h')
    · have hcons : finAfter fin (e :: t) = finAfter fin t := by
        cases e <;> try rfl
        case verityFinalize p ok =>
          cases ok
          · rfl
          · exact absurd ⟨_, rfl⟩ hf
      rw [hcons] at h
      rcases ih _ _ h with h' | h'
      exacts [Or.inl h', Or.inr (List.mem_cons_of_mem _ h')]

/-- A trace with no `VerifyTarget` reads satisfies `ordFrom` trivially. -/
theorem ordFrom_of_no_target_read (plan : InstallPlan) :
    ∀ (t : List Event) (fin : Nat → Bool),
    (∀ p o r, Event.read p VerifierStep.kVerifyTargetHash o r ∉ t) →
    ordFrom plan fin t := by
  intro t
  induction t with
  | nil => intro fin _; simp [ordFrom]
  | cons e t ih =>
    intro fin hno
    have hno' : ∀ p o r,
        Event.read p VerifierStep.kVerifyTargetHash o r ∉ t := by
      intro p o r hmem
      exact hno p o r (List.mem_cons_of_mem _ hmem)
    cases e <;> try (simpa [ordFrom] using ih _ hno')
    case verityFinalize pidx ok =>
      cases ok <;> simpa [ordFrom] using ih _ hno'
    case read pidx st off req =>
      cases st
      · simpa [ordFrom] using ih _ hno'
      · exact absurd (List.mem_cons_self _ _) (hno pidx off req)

/-- A trace with no successful finalize leaves the memory unchanged. -/
theorem finAfter_of_no_finalize : ∀ (t : List Event) (fin : Nat → Bool),
    (∀ p, Event.verityFinalize p true ∉ t) → finAfter fin t = fin := by
  intro t
  induction t with
  | nil => intro fin _; rfl
  | cons e t ih =>
    intro fin hno
    have hno' : ∀ p, Event.verityFinalize p true ∉ t := by
      intro p hmem
      exact hno p (List.mem_cons_of_mem _ hmem)
    cases e <;> try (simpa [finAfter] using ih _ hno')
    case verityFinalize pidx ok =>
      cases ok
      · simpa [finAfter] using ih _ hno'
      · exact absurd (List.mem_cons_self _ _) (hno pidx)

/-- A trace with no successful finalize satisfies `FinSeek` trivially. -/
theorem finSeek_of_no_finalize (plan : InstallPlan) (t : List Event)
    (hno : ∀ p, Event.verityFinalize p true ∉ t) : FinSeek plan t := by
  intro a pidx b heq
  exfalso
  apply hno pidx
  rw [heq]
  exact List.mem_append_right a (List.mem_cons_self _ _)

/-- `FinSeek` is closed under concatenation. -/
theorem finSeek_append (plan : InstallPlan) : ∀ (x y : List Event),
    FinSeek plan x → FinSeek plan y → FinSeek plan (x ++ y) := by
  intro x
  induction x with
  | nil => intro y _ hy; simpa using hy
  | cons e t ih =>
    intro y hx hy
    have hx' : FinSeek plan t := by
      intro a pidx b heq
      exact hx (e :: a) pidx b (by rw [heq]; rfl)
    intro a pidx b heq
    cases a with
    | nil =>
      simp at heq
      obtain ⟨he, hb⟩ := heq
      subst he
      obtain ⟨rest, hrest⟩ := hx [] pidx t rfl
      subst hrest
      exact ⟨rest ++ y, by rw [← hb]; rfl⟩
    | cons a0 a' =>
      simp at heq
      obtain ⟨he, hb⟩ := heq
      exact ih y hx' hy a' pidx b hb

/-- `Cleanup` issues no reads. -/
theorem cleanup_no_read (env : Env) (pl : InstallPlan) (can : Bool)
    (code : ErrorCode) (p : Nat) (st : VerifierStep) (o r : Nat) :
    Event.read p st o r ∉ (cleanup env pl can code).1 := by
  simp only [cleanup]
  split_ifs <;> simp

/-- `Cleanup` runs no verity finalize. -/
theorem cleanup_no_finalize (env : Env) (pl : InstallPlan) (can : Bool)
    (code : ErrorCode) (p : Nat) (ok : Bool) :
    Event.verityFinalize p ok ∉ (cleanup env pl can code).1 := by
  simp only [cleanup]
  split_ifs <;> simp

set_option maxHeartbeats 2000000 in
/-- One step preserves the C3 ordering invariant and emits only ordered
events: all its `VerifyTarget` reads at or past the filesystem data end
of a verity-writing partition see that partition finalized, and every
successful finalize is immediately followed by the re-seek to the
filesystem data end. -/
theorem step_c3 (env : Env) (plan : InstallPlan) (s : VState) (c : Ctl)
    (fin : Nat → Bool) (hplan : s.plan = plan) (hinv : InvC3 plan s fin c) :
    ordFrom plan fin (step env s c).1 ∧
    FinSeek plan (step env s c).1 ∧
    ∀ s' c', (step env s c).2 = StepOut.next s' c' →
      InvC3 plan s' (finAfter fin (step env s c).1) c' := by
  obtain ⟨plan', pidx, vstep, psize, fde, off, pos, hashed, bsz, can, fin'⟩ := s
  simp only at hplan hinv ⊢
  subst hplan
  cases c
  case startPartitionHashing =>
    refine ⟨?_, ?_, ?_⟩
    · cases vstep <;> simp only [step, afterFdInit] <;> split_ifs <;>
        exact ordFrom_of_no_target_read plan' _ fin
          (by intro p o r; simp [cleanup_no_read, cleanupStep])
    · cases vstep <;> simp only [step, afterFdInit] <;> split_ifs <;>
        exact finSeek_of_no_finalize plan' _
          (by intro p; simp [cleanup_no_finalize, cleanupStep])
    · intro s' c' heq
      cases vstep <;> simp only [step, afterFdInit] at heq ⊢ <;>
        split_ifs at heq ⊢ <;>
        simp only [cleanupStep] at heq <;>
        (cases heq <;> simp [InvC3, finAfter, fdeIdx])
  case scheduleFileSystemRead =>
    simp only [InvC3] at hinv
    cases vstep
    case kVerifySourceHash =>
      simp only [step]
      split_ifs with h1 h2
      · exact ⟨by simp [ordFrom], by intro a p b heq; simp at heq,
          by intro s' c' heq; cases heq <;> simp [InvC3, finAfter]⟩
      · refine ⟨?_, ?_, ?_⟩
        · exact ordFrom_of_no_target_read plan' _ fin
            (by intro p o r; simp [cleanup_no_read, cleanupStep])
        · exact finSeek_of_no_finalize plan' _
            (by intro p; simp [cleanup_no_finalize, cleanupStep])
        · intro s' c' heq
          simp [cleanupStep] at heq
      · refine ⟨?_, ?_, ?_⟩
        · exact ordFrom_of_no_target_read plan' _ fin (by intro p o r; simp)
        · exact finSeek_of_no_finalize plan' _ (by intro p; simp)
        · intro s' c' heq
          cases heq <;> simp [InvC3, finAfter]
    case kVerifyTargetHash =>
      have hfde := hinv rfl
      simp only [step]
      split_ifs with h1 h2
      · exact ⟨by simp [ordFrom], by intro a p b heq; simp at heq,
          by intro s' c' heq; cases heq <;> simpa [InvC3, finAfter] using hfde⟩
      · refine ⟨?_, ?_, ?_⟩
        · dsimp only [cleanupStep]
          simp only [List.cons_append, List.nil_append, ordFrom]
          refine ⟨?_, ordFrom_of_no_target_read plan' _ _
            (by intro p o r; simp [cleanup_no_read])⟩
          intro hw hle
          exfalso
          have h0 : fde - off ≠ 0 := by
            intro hz
            exact h1 (by simp [hz])
          omega
        · exact finSeek_of_no_finalize plan' _
            (by intro p; simp [cleanup_no_finalize, cleanupStep])
        · intro s' c' heq
          simp [cleanupStep] at heq
      · refine ⟨?_, ?_, ?_⟩
        · simp only [ordFrom]
          refine ⟨?_, trivial⟩
          intro hw hle
          exfalso
          have h0 : fde - off ≠ 0 := by
            intro hz
            exact h1 (by simp [hz])
          omega
        · exact finSeek_of_no_finalize plan' _ (by intro p; simp)
        · intro s' c' heq
          cases heq <;> simpa [InvC3, finAfter] using hfde
  case onReadDone n =>
    simp only [InvC3] at hinv
    cases vstep <;>
      simp only [step] <;>
      split_ifs <;>
      refine ⟨?_, ?_, ?_⟩ <;>
      first
        | (exact ordFrom_of_no_target_read plan' _ fin
            (by intro p o r; simp [cleanup_no_read, cleanupStep]))
        | (exact finSeek_of_no_finalize plan' _
            (by intro p; simp [cleanup_no_finalize, cleanupStep]))
        | (intro s' c' heq
           cases heq <;> simpa [InvC3, finAfter] using hinv)
  case readVerityAndFooter =>
    simp only [InvC3] at hinv
    cases vstep
    case kVerifySourceHash =>
      simp only [step]
      split_ifs with hsw hok
      · simp [shouldWriteVerity] at hsw
      · simp [shouldWriteVerity] at hsw
      · refine ⟨by simp [ordFrom], finSeek_of_no_finalize plan' _
          (by intro p; simp), ?_⟩
        intro s' c' heq
        cases heq <;> simp [InvC3, finAfter]
    case kVerifyTargetHash =>
      have hfde := hinv rfl
      simp only [step]
      split_ifs with hsw hok
      · refine ⟨by simp [ordFrom, hok], ?_, ?_⟩
        · simp only [hok]
          intro a p b heq
          cases a with
          | nil =>
            simp at heq
            obtain ⟨hp, hb⟩ := heq
            subst hp
            exact ⟨[], by rw [← hb, hfde]⟩
          | cons a0 a' =>
            cases a' with
            | nil => simp at heq
            | cons a1 a'' => simp at heq
        · intro s' c' heq
          cases heq
          simp [InvC3, finAfter, hok]
      · simp only [Bool.not_eq_true] at hok
        refine ⟨?_, ?_, ?_⟩
        · exact ordFrom_of_no_target_read plan' _ fin
            (by intro p o r; simp [cleanup_no_read, cleanupStep])
        · exact finSeek_of_no_finalize plan' _
            (by intro p; simp [cleanup_no_finalize, cleanupStep, hok])
        · intro s' c' heq
          simp [cleanupStep] at heq
      · refine ⟨by simp [ordFrom], finSeek_of_no_finalize plan' _
          (by intro p; simp), ?_⟩
        intro s' c' heq
        cases heq
        simp only [InvC3, finAfter]
        intro _ hw
        exfalso
        simp [shouldWriteVerity] at hsw
        simp [planWritesVerity] at hw
        obtain ⟨hw1, hw2⟩ := hw
        have := hsw hw1
        omega
  case readVerityLoop =>
    simp only [InvC3] at hinv
    cases vstep
    case kVerifySourceHash =>
      simp only [step]
      split_ifs <;>
        refine ⟨?_, ?_, ?_⟩ <;>
        first
          | (exact ordFrom_of_no_target_read plan' _ fin
              (by intro p o r; simp [cleanup_no_read, cleanupStep]))
          | (exact finSeek_of_no_finalize plan' _
              (by intro p; simp [cleanup_no_finalize, cleanupStep]))
          | (intro s' c' heq
             cases heq <;> simp [InvC3, finAfter])
    case kVerifyTargetHash =>
      simp only [step]
      split_ifs with h1 h2 h3
      · exact ⟨by simp [ordFrom], by intro a p b heq; simp at heq,
          by intro s' c' heq; cases heq <;> simp [InvC3, finAfter]⟩
      · refine ⟨?_, ?_, ?_⟩
        · dsimp only [cleanupStep]
          simp only [List.cons_append, List.nil_append, ordFrom]
          exact ⟨fun hw _ => hinv rfl hw, ordFrom_of_no_target_read plan' _ _
            (by intro p o r; simp [cleanup_no_read])⟩
        · exact finSeek_of_no_finalize plan' _
            (by intro p; simp [cleanup_no_finalize, cleanupStep])
        · intro s' c' heq
          simp [cleanupStep] at heq
      · refine ⟨?_, ?_, ?_⟩
        · simp only [ordFrom]
          exact ⟨fun hw _ => hinv rfl hw, trivial⟩
        · exact finSeek_of_no_finalize plan' _ (by intro p; simp)
        · intro s' c' heq
          cases heq <;> simpa [InvC3, finAfter] using hinv
      · refine ⟨?_, ?_, ?_⟩
        · dsimp only [cleanupStep]
          simp only [List.cons_append, List.nil_append, ordFrom]
          exact ⟨fun hw _ => hinv rfl hw, ordFrom_of_no_target_read plan' _ _
            (by intro p o r; simp [cleanup_no_read])⟩
        · exact finSeek_of_no_finalize plan' _
            (by intro p; simp [cleanup_no_finalize, cleanupStep])
        · intro s' c' heq
          simp [cleanupStep] at heq
  case finishPartitionHashing =>
    cases vstep <;>
      simp only [step] <;>
      split_ifs <;>
      refine ⟨?_, ?_, ?_⟩ <;>
      first
        | (exact ordFrom_of_no_target_read plan' _ fin
            (by intro p o r; simp [cleanup_no_read, cleanupStep]))
        | (exact finSeek_of_no_finalize plan' _
            (by intro p; simp [cleanup_no_finalize, cleanupStep]))
        | (intro s' c' heq
           cases heq <;> simp [InvC3, finAfter])


/-- Bridge from `ordFrom` to the split form of claim C3. -/
theorem ordFrom_read_mem (plan : InstallPlan) : ∀ (l1 l2 : List Event)
    (fin : Nat → Bool) (pidx off req : Nat),
    ordFrom plan fin
      (l1 ++ Event.read pidx VerifierStep.kVerifyTargetHash off req :: l2) →
    planWritesVerity plan pidx → fdeIdx plan pidx ≤ off →
    fin pidx = true ∨ Event.verityFinalize pidx true ∈ l1 := by
  intro l1 l2 fin pidx off req ho hw hle
  rw [ordFrom_append] at ho
  obtain ⟨-, ho2⟩ := ho
  have hfin : finAfter fin l1 pidx = true := by
    simp only [ordFrom] at ho2
    exact ho2.1 hw hle
  exact finAfter_mem l1 fin pidx hfin

/-- Whole-run form of `step_c3`. -/
theorem runLoop_c3 (env : Env) (plan : InstallPlan) : ∀ fuel s c fin,
    s.plan = plan → InvC3 plan s fin c →
    ordFrom plan fin (runLoop env fuel s c).1 ∧
    FinSeek plan (runLoop env fuel s c).1 := by
  intro fuel
  induction fuel with
  | zero =>
    intro s c fin _ _
    constructor
    · simp [runLoop, ordFrom]
    · intro a p b heq
      simp [runLoop] at heq
  | succ fuel ih =>
    intro s c fin hplan hinv
    rcases hstep : step env s c with ⟨ev, so⟩
    have hc3 := step_c3 env plan s c fin hplan hinv
    rw [hstep] at hc3
    simp only at hc3
    obtain ⟨ho, hf, hnext⟩ := hc3
    cases so with
    | done o =>
      simp only [runLoop, hstep]
      exact ⟨ho, hf⟩
    | next s' c' =>
      simp only [runLoop, hstep]
      have hinv' := hnext s' c' rfl
      have hpinv := step_next_inv env s c s' c' (by rw [hstep])
      obtain ⟨hord, hfs⟩ := ih s' c' (finAfter fin ev)
        (by rw [hpinv.1, hplan]) hinv'
      constructor
      · rw [ordFrom_append]
        exact ⟨ho, hord⟩
      · exact finSeek_append plan ev _ hf hfs

/-- C3: in every run, a `VerifyTarget` read at an offset at or past the
filesystem data end of a partition for which verity is written happens
only after the successful `verity_writer_->Finalize` of that partition,
and each such finalize is immediately followed by the fresh seek to the
filesystem data end. -/
theorem verity_reads_after_finalize (env : Env) (plan : InstallPlan)
    (fuel : Nat) (t : List Event) (o : Outcome)
    (hrun : performAction env plan fuel = (t, o)) :
    (∀ l1 pidx off req l2,
      t = l1 ++ Event.read pidx VerifierStep.kVerifyTargetHash off req :: l2 →
      planWritesVerity plan pidx → fdeIdx plan pidx ≤ off →
      Event.verityFinalize pidx true ∈ l1) ∧
    (∀ l1 pidx l2,
      t = l1 ++ Event.verityFinalize pidx true :: l2 →
      ∃ rest, l2 = Event.seek pidx VerifierStep.kVerifyTargetHash
        (fdeIdx plan pidx) :: rest) := by
  by_cases hemp : plan.partitions = []
  · rw [performAction, if_pos hemp] at hrun
    cases hrun
    constructor
    · intro l1 pidx off req l2 heq hw hle
      exfalso
      have hm : Event.read pidx VerifierStep.kVerifyTargetHash off req ∈
          (if env.hasOutputPipe then [Event.setOutput plan] else []) ++
            [Event.complete ErrorCode.kSuccess] := by
        rw [heq]
        exact List.mem_append_right l1 (List.mem_cons_self _ _)
      revert hm
      split_ifs <;> simp
    · intro l1 pidx l2 heq
      exfalso
      have hm : Event.verityFinalize pidx true ∈
          (if env.hasOutputPipe then [Event.setOutput plan] else []) ++
            [Event.complete ErrorCode.kSuccess] := by
        rw [heq]
        exact List.mem_append_right l1 (List.mem_cons_self _ _)
      revert hm
      split_ifs <;> simp
  · rw [performAction, if_neg hemp] at hrun
    have hc3 := runLoop_c3 env plan fuel (initialState plan)
      Ctl.startPartitionHashing (fun _ => false) rfl trivial
    rw [hrun] at hc3
    simp only at hc3
    obtain ⟨ho, hf⟩ := hc3
    constructor
    · intro l1 pidx off req l2 heq hw hle
      rw [heq] at ho
      exact (ordFrom_read_mem plan l1 l2 _ pidx off req ho hw hle).resolve_left
        (by simp)
    · intro l1 pidx l2 heq
      exact hf l1 pidx l2 heq

/-- Witness for C3: in the concrete verity run over `planV`, the read of
the hash-tree region at offset 2 is preceded by the finalize. -/
theorem verity_reads_after_finalize_witness :
    Event.verityFinalize 0 true ∈
      [Event.hashingStarted 0 VerifierStep.kVerifyTargetHash,
       Event.openFd "tp", Event.verityInit 0 true,
       Event.seek 0 VerifierStep.kVerifyTargetHash 0,
       Event.read 0 VerifierStep.kVerifyTargetHash 0 2,
       Event.progress 0 4, Event.verityUpdate 0 0 2 true,
       Event.verityFinalize 0 true,
       Event.seek 0 VerifierStep.kVerifyTargetHash 2] :=
  (verity_reads_after_finalize envV planV 40
      ([Event.hashingStarted 0 VerifierStep.kVerifyTargetHash,
        Event.openFd "tp", Event.verityInit 0 true,
        Event.seek 0 VerifierStep.kVerifyTargetHash 0,
        Event.read 0 VerifierStep.kVerifyTargetHash 0 2,
        Event.progress 0 4, Event.verityUpdate 0 0 2 true,
        Event.verityFinalize 0 true,
        Event.seek 0 VerifierStep.kVerifyTargetHash 2] ++
       Event.read 0 VerifierStep.kVerifyTargetHash 2 2 ::
        [Event.setOutput planV, Event.progress 1 1,
         Event.complete ErrorCode.kSuccess])
      (Outcome.completed ErrorCode.kSuccess) (by decide)).1
    [Event.hashingStarted 0 VerifierStep.kVerifyTargetHash,
     Event.openFd "tp", Event.verityInit 0 true,
     Event.seek 0 VerifierStep.kVerifyTargetHash 0,
     Event.read 0 VerifierStep.kVerifyTargetHash 0 2,
     Event.progress 0 4, Event.verityUpdate 0 0 2 true,
     Event.verityFinalize 0 true,
     Event.seek 0 VerifierStep.kVerifyTargetHash 2]
    0 2 2
    [Event.setOutput planV, Event.progress 1 1,
     Event.complete ErrorCode.kSuccess]
    rfl (by exact ⟨by decide, Or.inl (by decide)⟩) (by decide)


end FilesystemVerifier

namespace FilesystemVerifier

theorem progressQ_nonneg (num den : Nat) : 0 ≤ progressQ num den := by
  unfold progressQ
  positivity

theorem progressQ_le_one (num den : Nat) (h : num ≤ den) :
    progressQ num den ≤ 1 := by
  unfold progressQ
  rcases Nat.eq_zero_or_pos den with hd | hd
  · subst hd
    interval_cases num
    simp
  · rw [div_le_one (by exact_mod_cast hd)]
    exact_mod_cast h

theorem progressQ_mono (a b d : Nat) (h : a ≤ b) :
    progressQ a d ≤ progressQ b d := by
  unfold progressQ
  rcases Nat.eq_zero_or_pos d with hd | hd
  · subst hd
    simp
  · have hb : (a : ℚ) ≤ (b : ℚ) := by exact_mod_cast h
    have hd' : (0 : ℚ) < (d : ℚ) := by exact_mod_cast hd
    gcongr

theorem progressQ_one : progressQ 1 1 = 1 := by
  unfold progressQ
  norm_num

end FilesystemVerifier

namespace FilesystemVerifier

theorem monoFrom_append : ∀ (a b : List Event) (v : ℚ),
    monoFrom v (a ++ b) ↔ monoFrom v a ∧ monoFrom (boundAfter v a) b := by
  intro a
  induction a with
  | nil => intro b v; simp [monoFrom, boundAfter]
  | cons e t ih =>
    intro b v
    cases e <;> simp [monoFrom, boundAfter, ih, and_assoc]

theorem mono_head : ∀ (l2 l3 : List Event) (v : ℚ) (n2 d2 : Nat),
    monoFrom v (l2 ++ Event.progress n2 d2 :: l3) →
    (∀ p st, Event.hashingStarted p st ∉ l2) →
    v ≤ progressQ n2 d2 := by
  intro l2
  induction l2 with
  | nil =>
    intro l3 v n2 d2 hm _
    simpa [monoFrom] using hm.1
  | cons e t ih =>
    intro l3 v n2 d2 hm hns
    have hns' : ∀ p st, Event.hashingStarted p st ∉ t := by
      intro p st hmem
      exact hns p st (List.mem_cons_of_mem _ hmem)
    cases e <;> try exact ih l3 v n2 d2 (by simpa [monoFrom] using hm) hns'
    case progress n1 d1 =>
      simp only [List.cons_append, monoFrom] at hm
      exact le_trans hm.1 (ih l3 _ n2 d2 hm.2 hns')
    case hashingStarted p st =>
      exact absurd (List.mem_cons_self _ _) (hns p st)

theorem rangeOK_nil : RangeOK [] := by
  intro n d hm
  simp at hm

theorem rangeOK_append (a b : List Event) (ha : RangeOK a) (hb : RangeOK b) :
    RangeOK (a ++ b) := by
  intro n d hm
  rcases List.mem_append.mp hm with h | h
  · exact ha n d h
  · exact hb n d h

theorem cleanup_rangeOK (env : Env) (p : InstallPlan) (can : Bool)
    (code : ErrorCode) : RangeOK (cleanup env p can code).1 := by
  intro n d hm
  simp only [cleanup] at hm
  split_ifs at hm <;> simp at hm <;>
    first
      | (obtain ⟨hn, hd⟩ := hm
         subst hn
         subst hd
         exact ⟨progressQ_nonneg 1 1, le_of_eq progressQ_one⟩)
      | exact absurd hm (by simp)

theorem cleanup_monoFrom (env : Env) (p : InstallPlan) (can : Bool)
    (code : ErrorCode) (v : ℚ) (hv : v ≤ 1) :
    monoFrom v (cleanup env p can code).1 := by
  simp only [cleanup]
  split_ifs <;> simp [monoFrom, progressQ_one, hv]

end FilesystemVerifier

namespace FilesystemVerifier

set_option maxHeartbeats 2000000 in
theorem step_rangeOK (env : Env) (s : VState) (c : Ctl)
    (H : ∀ m, c = Ctl.onReadDone m →
      s.offset + m ≤ s.filesystem_data_end ∧
      s.filesystem_data_end ≤ s.partition_size ∧
      s.partition_index < s.plan.partitions.length) :
    RangeOK (step env s c).1 := by
  obtain ⟨plan', pidx, vstep, psize, fde, off, pos, hashed, bsz, can, fin'⟩ := s
  intro n d hm
  cases c
  case onReadDone m =>
    obtain ⟨hofm, hfp, hlt⟩ := H m rfl
    simp only at hofm hfp hlt
    simp only [step] at hm
    split_ifs at hm <;>
      first
        | exact cleanup_rangeOK env plan' can _ n d
            (by simpa [cleanupStep] using hm)
        | (simp [cleanupStep] at hm
           rcases hm with ⟨hn, hd⟩ | hmem
           · subst hn
             subst hd
             refine ⟨progressQ_nonneg _ _, progressQ_le_one _ _ ?_⟩
             calc off + pidx * psize ≤ psize + pidx * psize := by omega
               _ = (pidx + 1) * psize := by ring
               _ ≤ plan'.partitions.length * psize :=
                   Nat.mul_le_mul_right _ hlt
               _ = psize * plan'.partitions.length := Nat.mul_comm _ _
           · exact cleanup_rangeOK env plan' can _ n d hmem)
        | (simp [cleanupStep] at hm
           obtain ⟨hn, hd⟩ := hm
           subst hn
           subst hd
           refine ⟨progressQ_nonneg _ _, progressQ_le_one _ _ ?_⟩
           calc off + pidx * psize ≤ psize + pidx * psize := by omega
             _ = (pidx + 1) * psize := by ring
             _ ≤ plan'.partitions.length * psize :=
                 Nat.mul_le_mul_right _ hlt
             _ = psize * plan'.partitions.length := Nat.mul_comm _ _)
  all_goals (
    first
      | (cases vstep <;> simp only [step, afterFdInit] at hm <;>
          split_ifs at hm <;>
          first
            | exact cleanup_rangeOK env plan' can _ n d
                (by simpa [cleanupStep] using hm)
            | (simp [cleanupStep] at hm)
            | (rcases List.mem_cons.mp hm with h | h
               · exact absurd h (by simp)
               · exact cleanup_rangeOK env plan' can _ n d h))
      | (simp only [step] at hm <;>
          split_ifs at hm <;>
          first
            | exact cleanup_rangeOK env plan' can _ n d
                (by simpa [cleanupStep] using hm)
            | (simp [cleanupStep] at hm)))

end FilesystemVerifier

namespace FilesystemVerifier

set_option maxHeartbeats 2000000 in
theorem step_mono (env : Env) (s : VState) (c : Ctl) (v : ℚ)
    (h1 : v ≤ 1)
    (H : ∀ m, c = Ctl.onReadDone m →
      s.offset + m ≤ s.filesystem_data_end ∧
      s.filesystem_data_end ≤ s.partition_size ∧
      s.partition_index < s.plan.partitions.length ∧ v ≤ curProg s) :
    monoFrom v (step env s c).1 := by
  obtain ⟨plan', pidx, vstep, psize, fde, off, pos, hashed, bsz, can, fin'⟩ := s
  cases c
  case onReadDone m =>
    obtain ⟨hofm, hfp, hlt, hv⟩ := H m rfl
    simp only at hofm hfp hlt
    simp only [curProg, progressQ] at hv
    have hnum : off + pidx * psize ≤ psize * plan'.partitions.length := by
      calc off + pidx * psize ≤ psize + pidx * psize := by omega
        _ = (pidx + 1) * psize := by ring
        _ ≤ plan'.partitions.length * psize := Nat.mul_le_mul_right _ hlt
        _ = psize * plan'.partitions.length := Nat.mul_comm _ _
    simp only [step]
    split_ifs <;>
      simp only [cleanupStep] <;>
      first
        | exact cleanup_monoFrom env plan' can _ v h1
        | (refine (monoFrom_append _ _ _).mpr ⟨?_, ?_⟩
           · simp only [monoFrom, List.cons_append, List.nil_append]
             refine ⟨by exact_mod_cast hv, ?_⟩
             simp [monoFrom]
           · simp only [boundAfter]
             exact cleanup_monoFrom env plan' can _ _
               (progressQ_le_one _ _ hnum))
        | (simp only [monoFrom, List.cons_append, List.nil_append]
           refine ⟨by exact_mod_cast hv, ?_⟩
           simp [monoFrom])
  all_goals (
    first
      | (cases vstep <;>
          simp only [step, afterFdInit, cleanupStep] <;>
          split_ifs <;>
          first
            | (refine (monoFrom_append _ _ _).mpr ⟨?_, ?_⟩
               · simp [monoFrom]
               · exact cleanup_monoFrom env plan' can _ _
                   (by simp only [boundAfter]
                       first
                         | exact h1
                         | norm_num))
            | exact cleanup_monoFrom env plan' can _ _ h1
            | simp [monoFrom]
            | (refine (monoFrom_append _ _ _).mpr ⟨?_, ?_⟩ <;>
                simp [monoFrom, boundAfter, cleanup_monoFrom, h1])
            | (simp only [List.cons_append]
               simp [monoFrom]
               exact cleanup_monoFrom env plan' can _ _ h1))
      | (simp only [step, cleanupStep] <;>
          split_ifs <;>
          first
            | (refine (monoFrom_append _ _ _).mpr ⟨?_, ?_⟩
               · simp [monoFrom]
               · exact cleanup_monoFrom env plan' can _ _
                   (by simp only [boundAfter]
                       first
                         | exact h1
                         | norm_num))
            | exact cleanup_monoFrom env plan' can _ _ h1
            | simp [monoFrom]
            | (simp only [List.cons_append]
               simp [monoFrom]
               exact cleanup_monoFrom env plan' can _ _ h1)))

end FilesystemVerifier

namespace FilesystemVerifier

set_option maxHeartbeats 2000000 in
theorem step_invpres (env : Env) (plan : InstallPlan) (s : VState) (c : Ctl)
    (v : ℚ) (hb : PlanBounded plan) (hplan : s.plan = plan)
    (hinv : InvC6 plan v s c) :
    ∀ s' c', (step env s c).2 = StepOut.next s' c' →
      InvC6 plan (boundAfter v (step env s c).1) s' c' := by
  obtain ⟨plan', pidx, vstep, psize, fde, off, pos, hashed, bsz, can, fin'⟩ := s
  simp only at hplan hinv ⊢
  subst hplan
  intro s' c' heq
  cases c
  case startPartitionHashing =>
    simp only [InvC6] at hinv
    obtain ⟨h0, h1, hle⟩ := hinv
    by_cases hne : pidx = plan'.partitions.length
    · simp only [step, hne, if_pos] at heq
      split_ifs at heq <;> simp at heq
    · have hlt : pidx < plan'.partitions.length := lt_of_le_of_ne hle hne
      have hmem : plan'.partitions.getD pidx default ∈ plan'.partitions := by
        rw [List.getD_eq_getElem plan'.partitions default hlt]
        exact List.getElem_mem hlt
      obtain ⟨hbt, hbs⟩ := hb _ hmem
      cases vstep <;>
        simp only [step, afterFdInit, cleanupStep] at heq ⊢ <;>
        split_ifs at heq ⊢ <;>
        (cases heq <;>
          simp only [InvC6, boundAfter] <;>
          first
            | exact ⟨le_refl 0, by norm_num, hlt, Nat.zero_le _, hbt,
                progressQ_nonneg _ _⟩
            | exact ⟨le_refl 0, by norm_num, hlt, Nat.zero_le _, hbs,
                progressQ_nonneg _ _⟩
            | exact ⟨le_refl 0, by norm_num, by omega⟩)
  case scheduleFileSystemRead =>
    simp only [InvC6] at hinv
    obtain ⟨h0, h1, hlt, hof, hfp, hv⟩ := hinv
    simp only [step, cleanupStep] at heq ⊢
    split_ifs at heq ⊢ with hbtr hr <;>
      (cases heq <;>
        simp only [InvC6, boundAfter])
    · exact ⟨h0, h1, hlt⟩
    · refine ⟨h0, h1, hlt, ?_, hfp, by simpa [curProg] using hv⟩
      have hn1 : min (env.readResult pidx vstep fin' off
          (min bsz (fde - off))).toNat (min bsz (fde - off)) ≤
          min bsz (fde - off) := Nat.min_le_right _ _
      have hn2 : min bsz (fde - off) ≤ fde - off := Nat.min_le_right _ _
      omega
  case onReadDone m =>
    simp only [InvC6] at hinv
    obtain ⟨h0, h1, hlt, hofm, hfp, hv⟩ := hinv
    have hnum : off + pidx * psize ≤ psize * plan'.partitions.length := by
      calc off + pidx * psize ≤ psize + pidx * psize := by omega
        _ = (pidx + 1) * psize := by ring
        _ ≤ plan'.partitions.length * psize := Nat.mul_le_mul_right _ hlt
        _ = psize * plan'.partitions.length := Nat.mul_comm _ _
    simp only [step, cleanupStep] at heq ⊢
    split_ifs at heq ⊢ <;>
      (cases heq <;>
        simp only [InvC6, boundAfter] <;>
        first
          | exact ⟨progressQ_nonneg _ _, progressQ_le_one _ _ hnum, hlt⟩
          | (refine ⟨progressQ_nonneg _ _, progressQ_le_one _ _ hnum, hlt,
              by omega, hfp, ?_⟩
             simp only [curProg]
             exact progressQ_mono _ _ _ (by omega)))
  case readVerityAndFooter =>
    simp only [InvC6] at hinv
    obtain ⟨h0, h1, hlt⟩ := hinv
    simp only [step, cleanupStep] at heq ⊢
    split_ifs at heq ⊢ <;>
      (cases heq <;>
        simp only [InvC6, boundAfter] <;>
        exact ⟨h0, h1, hlt⟩)
  case readVerityLoop =>
    simp only [InvC6] at hinv
    obtain ⟨h0, h1, hlt⟩ := hinv
    simp only [step, cleanupStep] at heq ⊢
    split_ifs at heq ⊢ <;>
      (cases heq <;>
        simp only [InvC6, boundAfter] <;>
        exact ⟨h0, h1, hlt⟩)
  case finishPartitionHashing =>
    simp only [InvC6] at hinv
    obtain ⟨h0, h1, hlt⟩ := hinv
    cases vstep <;>
      simp only [step, cleanupStep] at heq ⊢ <;>
      split_ifs at heq ⊢ <;>
      (cases heq <;>
        simp only [InvC6, boundAfter] <;>
        exact ⟨h0, h1, by omega⟩)

end FilesystemVerifier

namespace FilesystemVerifier

/-- Run-level progress invariant: from any state satisfying `InvC6`, the
remaining trace has every progress value in range and non-decreasing from
the running bound `v`. -/
theorem runLoop_c6 (env : Env) (plan : InstallPlan) (hb : PlanBounded plan) :
    ∀ fuel s c v, s.plan = plan → InvC6 plan v s c →
    RangeOK (runLoop env fuel s c).1 ∧
    monoFrom v (runLoop env fuel s c).1 := by
  intro fuel
  induction fuel with
  | zero =>
    intro s c v _ _
    exact ⟨rangeOK_nil, by simp [runLoop, monoFrom]⟩
  | succ fuel ih =>
    intro s c v hplan hinv
    have hv1 : v ≤ 1 := by
      cases c <;> (simp only [InvC6] at hinv; exact hinv.2.1)
    have hr := step_rangeOK env s c (by
      intro m hc
      subst hc
      simp only [InvC6] at hinv
      exact ⟨hinv.2.2.2.1, hinv.2.2.2.2.1, hplan.symm ▸ hinv.2.2.1⟩)
    have hm := step_mono env s c v hv1 (by
      intro m hc
      subst hc
      simp only [InvC6] at hinv
      exact ⟨hinv.2.2.2.1, hinv.2.2.2.2.1, hplan.symm ▸ hinv.2.2.1,
        hinv.2.2.2.2.2⟩)
    have hip := step_invpres env plan s c v hb hplan hinv
    rcases hstep : step env s c with ⟨ev, so⟩
    rw [hstep] at hr hm hip
    simp only at hr hm hip
    cases so with
    | done o =>
      simp only [runLoop, hstep]
      exact ⟨hr, hm⟩
    | next s' c' =>
      simp only [runLoop, hstep]
      have hpinv := step_next_inv env s c s' c' (by rw [hstep])
      obtain ⟨hr', hm'⟩ := ih s' c' (boundAfter v ev)
        (by rw [hpinv.1, hplan]) (hip s' c' rfl)
      exact ⟨rangeOK_append _ _ hr hr',
        (monoFrom_append _ _ _).mpr ⟨hm, hm'⟩⟩

/-- C6 (amended): for every run of the stage on a plan whose verity layout
is bounded (filesystem data end at most partition size in each step), every
progress value delivered lies in the interval from 0 to 1; the progress
values are non-decreasing between consecutive hashing-pass starts (the
counter resets when a new pass begins, e.g. when switching to source
verification); and every terminal outcome of a plan with at least one
partition delivers a final progress value of exactly 1. -/
theorem progress_range_mono_final (env : Env) (plan : InstallPlan)
    (fuel : Nat) (t : List Event) (o : Outcome)
    (hb : PlanBounded plan) (hrun : performAction env plan fuel = (t, o)) :
    (∀ n d, Event.progress n d ∈ t →
      0 ≤ progressQ n d ∧ progressQ n d ≤ 1) ∧
    (∀ l1 n1 d1 l2 n2 d2 l3,
      t = l1 ++ Event.progress n1 d1 ::
        (l2 ++ Event.progress n2 d2 :: l3) →
      (∀ p st, Event.hashingStarted p st ∉ l2) →
      progressQ n1 d1 ≤ progressQ n2 d2) ∧
    (∀ code, plan.partitions ≠ [] → o = Outcome.completed code →
      ∃ t', t = t' ++ [Event.progress 1 1, Event.complete code] ∧
        progressQ 1 1 = 1) := by
  by_cases hemp : plan.partitions = []
  · rw [performAction, if_pos hemp] at hrun
    cases hrun
    refine ⟨?_, ?_, ?_⟩
    · intro n d hm
      exfalso
      revert hm
      split_ifs <;> simp
    · intro l1 n1 d1 l2 n2 d2 l3 heq hns
      exfalso
      have hm : Event.progress n1 d1 ∈
          (if env.hasOutputPipe then [Event.setOutput plan] else []) ++
            [Event.complete ErrorCode.kSuccess] := by
        rw [heq]
        exact List.mem_append_right l1 (List.mem_cons_self _ _)
      revert hm
      split_ifs <;> simp
    · intro code hne _
      exact absurd hemp hne
  · rw [performAction, if_neg hemp] at hrun
    have hc6 := runLoop_c6 env plan hb fuel (initialState plan)
      Ctl.startPartitionHashing 0 rfl
      (by simp only [InvC6, initialState]; exact ⟨le_refl 0, by norm_num,
        Nat.zero_le _⟩)
    have hcs := runLoop_completed_suffix env fuel (initialState plan)
      Ctl.startPartitionHashing
    rw [hrun] at hc6 hcs
    simp only at hc6 hcs
    obtain ⟨hr, hm⟩ := hc6
    refine ⟨hr, ?_, ?_⟩
    · intro l1 n1 d1 l2 n2 d2 l3 heq hns
      rw [heq] at hm
      rw [monoFrom_append] at hm
      have h2 := hm.2
      simp only [monoFrom] at h2
      exact mono_head l2 l3 _ n2 d2 h2.2 hns
    · intro code _ ho
      subst ho
      obtain ⟨t', ht⟩ := hcs code rfl rfl
      refine ⟨t' ++ ((if plan.write_verity = false ∧
          env.snapshotCompression = true then [Event.unmapAll] else []) ++
        (if code = ErrorCode.kSuccess ∧ env.hasOutputPipe = true then
          [Event.setOutput plan] else [])), ?_, progressQ_one⟩
      rw [ht]
      simp [cleanupEvents, initialState, List.append_assoc]

end FilesystemVerifier

namespace FilesystemVerifier

/-- C6 counterexample to the claim as stated: in the `envS`/`planS` run the
verifier delivers progress 131072/262144 during the target pass and later
progress 0/262144 at the start of the source pass, so the global sequence
of progress values decreases; moreover the empty-partition plan `planE`
reaches the terminal outcome `kSuccess` while delivering no progress value
at all, so no final value of 1 is delivered there. -/
theorem progress_not_monotone_cex :
    (∃ l1 l2 l3, (performAction envS planS 100).1 =
      l1 ++ Event.progress 131072 262144 ::
        (l2 ++ Event.progress 0 262144 :: l3)) ∧
    progressQ 0 262144 < progressQ 131072 262144 ∧
    (performAction envA planE 1).2 =
      Outcome.completed ErrorCode.kSuccess ∧
    (∀ n d, Event.progress n d ∉ (performAction envA planE 1).1) := by
  refine ⟨⟨[Event.hashingStarted 0 VerifierStep.kVerifyTargetHash,
      Event.openFd "tp",
      Event.seek 0 VerifierStep.kVerifyTargetHash 0,
      Event.read 0 VerifierStep.kVerifyTargetHash 0 131072,
      Event.progress 0 262144,
      Event.seek 0 VerifierStep.kVerifyTargetHash 131072,
      Event.read 0 VerifierStep.kVerifyTargetHash 131072 131072],
    [Event.seek 0 VerifierStep.kVerifyTargetHash 262144,
      Event.hashingStarted 0 VerifierStep.kVerifySourceHash,
      Event.openFd "sp",
      Event.seek 0 VerifierStep.kVerifySourceHash 0,
      Event.read 0 VerifierStep.kVerifySourceHash 0 131072],
    [Event.seek 0 VerifierStep.kVerifySourceHash 131072,
      Event.read 0 VerifierStep.kVerifySourceHash 131072 131072,
      Event.progress 131072 262144,
      Event.seek 0 VerifierStep.kVerifySourceHash 262144,
      Event.progress 1 1,
      Event.complete ErrorCode.kNewRootfsVerificationError], by decide⟩,
    by norm_num [progressQ], by decide, ?_⟩
  intro n d h
  have heq : (performAction envA planE 1).1 =
      [Event.setOutput planE, Event.complete ErrorCode.kSuccess] := by decide
  rw [heq] at h
  simp at h

/-- C6 witness: the concrete successful `envA`/`planA` run ends with the
progress event 1/1 followed by the completion event, by the theorem. -/
theorem progress_range_mono_final_witness :
    ∃ t', (performAction envA planA 40).1 =
      t' ++ [Event.progress 1 1, Event.complete ErrorCode.kSuccess] ∧
      progressQ 1 1 = 1 :=
  (progress_range_mono_final envA planA 40 (performAction envA planA 40).1
    (performAction envA planA 40).2
    (by intro p hp
        simp [planA] at hp
        subst hp
        exact ⟨by decide, by decide⟩)
    rfl).2.2 ErrorCode.kSuccess (by decide) (by decide)

end FilesystemVerifier
